import Mathlib

/-!
Shallow embedding of the Resume Analyser pipeline (src/app.py) over `List Char`
strings, together with theorems settling the specification's claims about it.

Python strings are modelled as `List Char` (ASCII fragment); Python dicts for
course entries become an option-field record; the Flask handler becomes a pure
function from a request plus an environment of external-call outcomes (OCR,
generative API) to a response and a scratch-file state.
-/

/-- ASCII whitespace, modelling the characters stripped by Python `str.strip()`
and matched by the regex class backslash-s. -/
def isSpace (c : Char) : Bool :=
  c = ' ' || c = '\t' || c = '\n' || c = '\r' || c = '\x0b' || c = '\x0c'

/-- Python `str.lstrip()`. -/
def lstrip (l : List Char) : List Char := l.dropWhile isSpace

/-- Python `str.rstrip()`. -/
def rstrip (l : List Char) : List Char := (l.reverse.dropWhile isSpace).reverse

/-- Python `str.strip()`. -/
def pyStrip (l : List Char) : List Char := rstrip (lstrip l)

/-- Python `str.split` on a newline: `splitLines "a\nb" = ["a", "b"]`,
`splitLines "" = [""]`. -/
def splitLines : List Char → List (List Char)
  | [] => [[]]
  | c :: t =>
    if c = '\n' then [] :: splitLines t
    else
      match splitLines t with
      | [] => [[c]]
      | h :: r => (c :: h) :: r

/-- Fuel-indexed helper for `pyReplace`; the fuel only serves structural
recursion and is irrelevant once it covers the input length. -/
def pyReplaceAux (pat repl : List Char) : Nat → List Char → List Char
  | 0, l => l
  | fuel + 1, l =>
    match l with
    | [] => []
    | c :: t =>
      if pat.isPrefixOf (c :: t) then
        repl ++ pyReplaceAux pat repl fuel (t.drop (pat.length - 1))
      else
        c :: pyReplaceAux pat repl fuel t

/-- Python `str.replace(pat, repl)`: replaces every non-overlapping occurrence
of `pat`, scanning left to right (for nonempty `pat`, as used in app.py). -/
def pyReplace (pat repl : List Char) (l : List Char) : List Char :=
  pyReplaceAux pat repl l.length l

/-- Predicate `containsTok pat l` holds when `pat` occurs as a contiguous run inside `l`
(Python `pat in l`). -/
def containsTok (pat : List Char) : List Char → Bool
  | [] => pat.isPrefixOf []
  | c :: t => pat.isPrefixOf (c :: t) || containsTok pat t

/-- Relation `initSeg a b`: `a` is an initial segment of `b`. -/
def initSeg (a b : List Char) : Prop := ∃ t, a ++ t = b

/-- One course entry as built by `get_course_recommendations`: a Python dict
with at most the keys title, description and link; an unassigned key is
`none`. -/
structure Course where
  title : Option (List Char)
  description : Option (List Char)
  link : Option (List Char)
deriving DecidableEq

/-- The freshly reset `current_course = {}`. -/
def Course.empty : Course := ⟨none, none, none⟩

/-- The token starting a new entry (`line.startswith('Course')`). -/
def courseTok : List Char := "Course".toList

/-- The title-line token. -/
def titleTok : List Char := "Title:".toList

/-- The description-line token. -/
def descTok : List Char := "Description:".toList

/-- The link-line token. -/
def linkTok : List Char := "Link:".toList

/-- The running state of the parsing loop in `get_course_recommendations`:
the accumulated `recommendations` list and the `current_course` dict. -/
structure ParseState where
  recs : List Course
  cur : Course
deriving DecidableEq

/-- One iteration of the loop in `get_course_recommendations` (app.py lines
165-176): strip the line, then dispatch on its leading token. -/
def courseStep (st : ParseState) (rawLine : List Char) : ParseState :=
  let line := pyStrip rawLine
  if courseTok.isPrefixOf line then
    { recs := if st.cur = Course.empty then st.recs else st.recs ++ [st.cur],
      cur := Course.empty }
  else if titleTok.isPrefixOf line then
    { st with cur := { st.cur with title := some (pyStrip (pyReplace titleTok [] line)) } }
  else if descTok.isPrefixOf line then
    { st with cur := { st.cur with description := some (pyStrip (pyReplace descTok [] line)) } }
  else if linkTok.isPrefixOf line then
    { st with cur := { st.cur with link := some (pyStrip (pyReplace linkTok [] line)) } }
  else
    st

/-- The whole parsing loop, starting from an empty list and an empty dict. -/
def courseLoop (lines : List (List Char)) : ParseState :=
  lines.foldl courseStep ⟨[], Course.empty⟩

/-- Lines 161-180 of app.py: run the loop over the reply's lines, then append
the final `current_course` if it is non-empty. -/
def parsedCourses (reply : List Char) : List Course :=
  let st := courseLoop (splitLines reply)
  if st.cur = Course.empty then st.recs else st.recs ++ [st.cur]

/-- The hardcoded fallback list (app.py lines 184-200). -/
def fallbackCourses : List Course :=
  [ ⟨some "Professional Development Course".toList,
     some "Enhance your professional skills with this comprehensive course.".toList,
     some "https://www.coursera.org/learn/professional-development".toList⟩,
    ⟨some "Technical Skills Training".toList,
     some "Improve your technical expertise with hands-on projects.".toList,
     some "https://www.udemy.com/courses/development/".toList⟩,
    ⟨some "Soft Skills Workshop".toList,
     some "Develop essential soft skills for career growth.".toList,
     some "https://www.linkedin.com/learning/".toList⟩ ]

/-- The pure part of `get_course_recommendations` (app.py lines 160-202),
mapping the model's reply text to the returned list: parse, substitute the
fallback when nothing was recovered, truncate to three. -/
def get_course_recommendations (reply : List Char) : List Course :=
  let recommendations := parsedCourses reply
  (if recommendations = [] then fallbackCourses else recommendations).take 3

/-- The literal token of the score regex (app.py line 122). -/
def scoreTok : List Char := "Score:".toList

/-- Numeric value of a digit run, modelling Python `int` on the regex group. -/
def digitsVal (d : List Char) : Nat :=
  d.foldl (fun a c => 10 * a + (c.toNat - '0'.toNat)) 0

/-- One attempt of the regex `Score:` backslash-s-star digits-plus at a fixed
start position: the token, a maximal whitespace run, then a nonempty maximal
digit run (the captured group). -/
def scoreMatchAt (l : List Char) : Option Nat :=
  if scoreTok.isPrefixOf l then
    if ((l.drop scoreTok.length).dropWhile isSpace).takeWhile Char.isDigit = [] then none
    else some (digitsVal (((l.drop scoreTok.length).dropWhile isSpace).takeWhile Char.isDigit))
  else none

/-- Leftmost-match search, modelling `re.search` (and the head of
`re.findall`): try the pattern at each start position, left to right. -/
def reSearch {α : Type} (f : List Char → Option α) : List Char → Option α
  | [] => f []
  | c :: t =>
    match f (c :: t) with
    | some m => some m
    | none => reSearch f t

/-- Function `extract_score_from_analysis` (app.py lines 118-128): first regex match of
`Score:` followed by digits, or 0 when absent. -/
def extract_score_from_analysis (analysis : List Char) : Nat :=
  (reSearch scoreMatchAt analysis).getD 0

/-- The character class of the email regex's local part. -/
def isLocalChar (c : Char) : Bool :=
  c.isAlpha || c.isDigit || c = '.' || c = '_' || c = '%' || c = '+' || c = '-'

/-- The character class of the email regex's domain part. -/
def isDomainChar (c : Char) : Bool :=
  c.isAlpha || c.isDigit || c = '.' || c = '-'

/-- Attempt to split the maximal domain-character run `R` at dot position `p`:
requires a literal dot there and at least two letters after it; returns the
matched portion of the domain. -/
def domainSplitAt (R : List Char) (p : Nat) : Option (List Char) :=
  if R.getD p ' ' = '.' then
    let t := (R.drop (p + 1)).takeWhile Char.isAlpha
    if 2 ≤ t.length then some (R.take p ++ '.' :: t) else none
  else none

/-- Greedy backtracking over the dot position, largest first (the regex engine
gives the plus-quantifier as much as possible before the literal dot). -/
def domainSplitAux (R : List Char) : Nat → Option (List Char)
  | 0 => none
  | p + 1 =>
    match domainSplitAt R (p + 1) with
    | some m => some m
    | none => domainSplitAux R p

/-- Match of the domain half of the email regex against the maximal
domain-character run `R`. -/
def domainMatch (R : List Char) : Option (List Char) :=
  domainSplitAux R (R.length - 1)

/-- One attempt of the email regex of `extract_contact_info` (app.py line 65)
at a fixed start position. -/
def emailMatchAt (l : List Char) : Option (List Char) :=
  if l.takeWhile isLocalChar = [] then none
  else
    match l.drop (l.takeWhile isLocalChar).length with
    | '@' :: rest =>
      match domainMatch (rest.takeWhile isDomainChar) with
      | some dm => some (l.takeWhile isLocalChar ++ '@' :: dm)
      | none => none
    | _ => none

/-- The separator class `[-. ]` of the phone regex. -/
def isSepChar (c : Char) : Bool := c = '-' || c = '.' || c = ' '

/-- Consume exactly `n` digits, returning the rest, or fail. -/
def takeDigits : Nat → List Char → Option (List Char)
  | 0, l => some l
  | _ + 1, [] => none
  | n + 1, c :: t => if c.isDigit then takeDigits n t else none

/-- Continuation-passing exact digit group of the phone regex. -/
def exactDigits (n : Nat) (k : List Char → Option (List Char))
    (l : List Char) : Option (List Char) :=
  match takeDigits n l with
  | some r => k r
  | none => none

/-- Continuation-passing greedy optional single character from class `P`
(regex `X?`): try consuming first, fall back to not consuming. -/
def optPred (P : Char → Bool) (k : List Char → Option (List Char))
    (l : List Char) : Option (List Char) :=
  match l with
  | c :: t =>
    if P c then
      match k t with
      | some r => some r
      | none => k (c :: t)
    else k (c :: t)
  | [] => k []

/-- Greedy `d{1,3}` of the phone regex: try three digits, then two, then
one, backtracking through the continuation. -/
def digits13 (k : List Char → Option (List Char))
    (l : List Char) : Option (List Char) :=
  match exactDigits 3 k l with
  | some r => some r
  | none =>
    match exactDigits 2 k l with
    | some r => some r
    | none => exactDigits 1 k l

/-- The optional country-code group of the phone regex: a plus sign, one to
three digits and an optional separator, or nothing. -/
def countryGroup (k : List Char → Option (List Char))
    (l : List Char) : Option (List Char) :=
  match l with
  | '+' :: t =>
    match digits13 (optPred isSepChar k) t with
    | some r => some r
    | none => k ('+' :: t)
  | _ => k l

/-- Full phone regex of `extract_contact_info` (app.py line 70) as a
continuation-passing matcher returning the unconsumed rest on success. -/
def phoneFull : List Char → Option (List Char) :=
  countryGroup (optPred (fun c => c = '(')
    (exactDigits 3 (optPred (fun c => c = ')')
      (optPred isSepChar (exactDigits 3 (optPred isSepChar (exactDigits 4 some)))))))

/-- One attempt of the phone regex at a fixed start position, returning the
matched portion. -/
def phoneMatchAt (l : List Char) : Option (List Char) :=
  match phoneFull l with
  | some rest => some (l.take (l.length - rest.length))
  | none => none

/-- The record returned by `extract_contact_info`. -/
structure ContactInfo where
  name : Option (List Char)
  email : Option (List Char)
  phone : Option (List Char)
deriving DecidableEq

/-- The name heuristic's per-line test (app.py line 78): non-empty after
stripping, and no digit anywhere in the raw line. -/
def nameLinePred (l : List Char) : Bool :=
  !(pyStrip l).isEmpty && !(l.any Char.isDigit)

/-- Function `extract_contact_info` (app.py lines 62-86): first email-regex match,
first phone-regex match, and the first of the first five lines passing the
name test, stripped. -/
def extract_contact_info (text : List Char) : ContactInfo :=
  { name := (((splitLines text).take 5).find? nameLinePred).map pyStrip,
    email := reSearch emailMatchAt text,
    phone := reSearch phoneMatchAt text }

/-- Modelled from the spec's description of the regex language: a well-formed
email as matched in full by the pattern of app.py line 65 (nonempty local
part, at-sign, nonempty domain-character run, dot, at least two letters). -/
def EmailWF (e : List Char) : Prop :=
  ∃ loc dom tld, e = loc ++ '@' :: (dom ++ '.' :: tld) ∧
    loc ≠ [] ∧ (∀ c ∈ loc, isLocalChar c) ∧
    dom ≠ [] ∧ (∀ c ∈ dom, isDomainChar c) ∧
    2 ≤ tld.length ∧ (∀ c ∈ tld, c.isAlpha)

/-- Spec-side statement that the score pattern matches at start position `i`
of `s`: the token, some whitespace, then a digit. -/
def ScorePatternAt (s : List Char) (i : Nat) : Prop :=
  ∃ ws c, initSeg (scoreTok ++ ws ++ [c]) (s.drop i) ∧
    (∀ x ∈ ws, isSpace x) ∧ c.isDigit

/-- One raw OCR line as indexed by the loop of `extract_text_from_pdf`: its
Python length (the code requires at least 2 elements) and the text content
sitting at `line[1][0]`. -/
structure RawLine where
  size : Nat
  text : List Char
deriving DecidableEq

/-- The per-page engine result: `None`, or the list `result[0]` of raw lines,
each possibly `None`. -/
abbrev PageResult := Option (List (Option RawLine))

/-- Function `extract_text_from_pdf` (app.py lines 44-60): concatenate the text of
every recognized line of every page, each followed by a newline, skipping
`None` results, `None` lines and lines shorter than 2. -/
def extract_text_from_pdf (pages : List PageResult) : List Char :=
  pages.foldl
    (fun acc res =>
      match res with
      | none => acc
      | some ls =>
        ls.foldl
          (fun a l =>
            match l with
            | none => a
            | some r => if 2 ≤ r.size then a ++ r.text ++ ['\n'] else a)
          acc)
    []

/-- Spec-side view of a page: the texts of its recognized lines, in engine
order. -/
def recognizedLines (p : PageResult) : List (List Char) :=
  match p with
  | none => []
  | some ls =>
    ls.filterMap
      (fun l =>
        match l with
        | none => none
        | some r => if 2 ≤ r.size then some r.text else none)

/-- Spec-side contribution of one page to the blob: each recognized line
followed by a newline separator. -/
def pageText (p : PageResult) : List Char :=
  (recognizedLines p).foldr (fun l acc => l ++ '\n' :: acc) []

/-- The multipart file of a request: its filename (content abstracted). -/
structure UploadedFile where
  filename : List Char
deriving DecidableEq

/-- A `POST /analyze` request: the optional multipart field `resume`. -/
structure AnalyzeRequest where
  resume : Option UploadedFile
deriving DecidableEq

/-- Outcomes of the external calls made while handling one request: the OCR
text extraction on the saved file, and the two generative-API round trips
(`ok []` models a response object with empty text). -/
structure PipelineEnv where
  ocrText : Except (List Char) (List Char)
  analysisReply : Except (List Char) (List Char)
  recsReply : Except (List Char) (List Char)

/-- A JSON response of the handler: an error with status code, or the 200
payload of app.py lines 265-272. -/
inductive Response where
  | err (status : Nat) (msg : List Char)
  | ok200 (name email phone : Option (List Char)) (score : Nat)
      (analysis : List Char) (recs : List Course)
deriving DecidableEq

/-- Scratch-file bookkeeping of one request: whether the upload was written
to the uploads directory, and whether it was deleted again. -/
structure FileState where
  saved : Bool
  removed : Bool
deriving DecidableEq

def noFileMsg : List Char := "No file uploaded".toList

def noSelectMsg : List Char := "No file selected".toList

def onlyPdfMsg : List Char := "Only PDF files are supported".toList

def noTextMsg : List Char := "No text could be extracted from the PDF".toList

def emptyRespMsg : List Char := "Empty response from Gemini API".toList

def pdfExt : List Char := ".pdf".toList

/-- Function `analyze_resume` (app.py lines 88-116): propagate an API failure, raise on
an empty response text, otherwise return the reply. -/
def analyze_resume (reply : Except (List Char) (List Char)) :
    Except (List Char) (List Char) :=
  match reply with
  | .error e => .error e
  | .ok t => if t = [] then .error emptyRespMsg else .ok t

/-- The fallible wrapper of `get_course_recommendations`: the API call can
fail or come back empty (raising), otherwise the reply is parsed. -/
def getCourseRecommendationsCall (reply : Except (List Char) (List Char)) :
    Except (List Char) (List Course) :=
  match reply with
  | .error e => .error e
  | .ok t => if t = [] then .error emptyRespMsg else .ok (get_course_recommendations t)

/-- The `/analyze` handler (app.py lines 216-277): three validation checks
before saving, then the pipeline inside the try block, where any failure is
answered with status 500 and the exception message, and the scratch file is
removed only after every stage succeeded. -/
def analyze (req : AnalyzeRequest) (env : PipelineEnv) : Response × FileState :=
  match req.resume with
  | none => (.err 400 noFileMsg, ⟨false, false⟩)
  | some f =>
    if f.filename = [] then (.err 400 noSelectMsg, ⟨false, false⟩)
    else if !(pdfExt.isSuffixOf f.filename) then (.err 400 onlyPdfMsg, ⟨false, false⟩)
    else
      match env.ocrText with
      | .error e => (.err 500 e, ⟨true, false⟩)
      | .ok text =>
        if pyStrip text = [] then (.err 500 noTextMsg, ⟨true, false⟩)
        else
          let contact := extract_contact_info text
          match analyze_resume env.analysisReply with
          | .error e => (.err 500 e, ⟨true, false⟩)
          | .ok analysis =>
            let score := extract_score_from_analysis analysis
            match getCourseRecommendationsCall env.recsReply with
            | .error e => (.err 500 e, ⟨true, false⟩)
            | .ok recs =>
              (.ok200 contact.name contact.email contact.phone score analysis recs,
               ⟨true, true⟩)

/-- Join lines with newline separators (inverse of `splitLines` on
newline-free lines); used to state template-shaped replies. -/
def joinNL : List (List Char) → List Char
  | [] => []
  | [l] => l
  | l :: ls => l ++ '\n' :: joinNL ls

/-- A reply in the documented three-course template: headers, `Title:`,
`Description:` and `Link:` lines carrying the given raw contents, with a
blank separator line between courses. -/
def templateReply (t1 d1 l1 t2 d2 l2 t3 d3 l3 : List Char) : List Char :=
  joinNL
    [ "Course 1:".toList, titleTok ++ t1, descTok ++ d1, linkTok ++ l1, [],
      "Course 2:".toList, titleTok ++ t2, descTok ++ d2, linkTok ++ l2, [],
      "Course 3:".toList, titleTok ++ t3, descTok ++ d3, linkTok ++ l3 ]

/-- A raw field content fit for one template line: it spans a single line and
does not itself contain the field's token (the proviso under which stripping
the prefix and removing every occurrence agree). -/
def cleanContent (tok raw : List Char) : Prop :=
  '\n' ∉ raw ∧ containsTok tok raw = false

/-- A continuation or matcher only consumes a prefix of its input: a success
returns a suffix of the list it was given. -/
def consumesOnly (k : List Char → Option (List Char)) : Prop :=
  ∀ l r, k l = some r → ∃ t, t ++ r = l

/-! ## List and string helper lemmas -/

theorem takeWhile_app_of {P : Char → Bool} {xs : List Char} {y : Char} (ys : List Char)
    (hxs : ∀ x ∈ xs, P x = true) (hy : P y = false) :
    (xs ++ y :: ys).takeWhile P = xs := by
  induction xs with
  | nil => simp [List.takeWhile, hy]
  | cons a t ih =>
    have ha : P a = true := hxs a (by simp)
    simp only [List.cons_append, List.takeWhile, ha, List.cons.injEq, true_and]
    exact ih fun x hx => hxs x (by simp [hx])

theorem dropWhile_app_of {P : Char → Bool} {xs : List Char} {y : Char} (ys : List Char)
    (hxs : ∀ x ∈ xs, P x = true) (hy : P y = false) :
    (xs ++ y :: ys).dropWhile P = y :: ys := by
  induction xs with
  | nil => simp [List.dropWhile, hy]
  | cons a t ih =>
    have ha : P a = true := hxs a (by simp)
    simp only [List.cons_append, List.dropWhile, ha]
    exact ih fun x hx => hxs x (by simp [hx])

theorem takeWhile_app_all {P : Char → Bool} {xs : List Char} (b : List Char)
    (h : ∀ x ∈ xs, P x = true) :
    (xs ++ b).takeWhile P = xs ++ b.takeWhile P := by
  induction xs with
  | nil => simp
  | cons a t ih =>
    have ha : P a = true := h a (by simp)
    simp only [List.cons_append, List.takeWhile, ha]
    simp [ih fun x hx => h x (by simp [hx])]

theorem dropWhile_app_all {P : Char → Bool} {xs : List Char} (b : List Char)
    (h : ∀ x ∈ xs, P x = true) :
    (xs ++ b).dropWhile P = b.dropWhile P := by
  induction xs with
  | nil => simp
  | cons a t ih =>
    have ha : P a = true := h a (by simp)
    simp only [List.cons_append, List.dropWhile, ha]
    exact ih fun x hx => h x (by simp [hx])

theorem mem_of_mem_takeWhile {P : Char → Bool} {l : List Char} {x : Char}
    (h : x ∈ l.takeWhile P) : P x = true := by
  induction l with
  | nil => simp [List.takeWhile] at h
  | cons a t ih =>
    by_cases ha : P a = true
    · simp only [List.takeWhile, ha] at h
      rcases List.mem_cons.mp h with rfl | h
      · exact ha
      · exact ih h
    · rw [Bool.not_eq_true] at ha
      simp only [List.takeWhile, ha] at h
      cases h

theorem takeWhile_all {P : Char → Bool} {l : List Char}
    (h : ∀ x ∈ l, P x = true) : l.takeWhile P = l := by
  induction l with
  | nil => rfl
  | cons a t ih =>
    simp only [List.takeWhile, h a (by simp)]
    exact congrArg (a :: ·) (ih fun x hx => h x (by simp [hx]))

theorem isPrefixOf_app_self (p t : List Char) : p.isPrefixOf (p ++ t) = true := by
  induction p with
  | nil => simp [List.isPrefixOf]
  | cons a q ih => simp [List.isPrefixOf, ih]

theorem isPrefixOf_iff_initSeg {p l : List Char} :
    p.isPrefixOf l = true ↔ initSeg p l := by
  induction p generalizing l with
  | nil => simp [List.isPrefixOf, initSeg]
  | cons a q ih =>
    cases l with
    | nil =>
      simp only [List.isPrefixOf, initSeg]
      constructor
      · intro h; cases h
      · rintro ⟨t, ht⟩; cases ht
    | cons b m =>
      simp only [List.isPrefixOf, Bool.and_eq_true, beq_iff_eq, ih, initSeg]
      constructor
      · rintro ⟨rfl, t, rfl⟩; exact ⟨t, rfl⟩
      · rintro ⟨t, ht⟩
        injection ht with h1 h2
        exact ⟨h1, t, h2⟩

theorem containsTok_iff {pat l : List Char} :
    containsTok pat l = true ↔ ∃ a b, l = a ++ pat ++ b := by
  induction l with
  | nil =>
    simp only [containsTok, isPrefixOf_iff_initSeg, initSeg]
    constructor
    · rintro ⟨t, ht⟩
      exact ⟨[], t, by simp [ht.symm]⟩
    · rintro ⟨a, b, h⟩
      rcases List.append_eq_nil.mp (List.append_eq_nil.mp h.symm).1 with ⟨_, h2⟩
      exact ⟨b, by simp [h2, (List.append_eq_nil.mp h.symm).2.symm]⟩
  | cons c t ih =>
    simp only [containsTok, Bool.or_eq_true, isPrefixOf_iff_initSeg, initSeg, ih]
    constructor
    · rintro (⟨r, hr⟩ | ⟨a, b, h⟩)
      · exact ⟨[], r, by simp [hr.symm]⟩
      · exact ⟨c :: a, b, by simp [h]⟩
    · rintro ⟨a, b, h⟩
      cases a with
      | nil => exact Or.inl ⟨b, by simpa using h.symm⟩
      | cons a0 a' =>
        right
        injection h with _ h2
        exact ⟨a', b, h2⟩

theorem containsTok_initSeg {pat x y : List Char} (h : initSeg x y)
    (hc : containsTok pat x = true) : containsTok pat y = true := by
  rcases containsTok_iff.mp hc with ⟨a, b, rfl⟩
  rcases h with ⟨t, rfl⟩
  exact containsTok_iff.mpr ⟨a, b ++ t, by simp⟩

theorem pyReplaceAux_fuel (pat repl : List Char) :
    ∀ fuel, ∀ l : List Char, l.length ≤ fuel →
      pyReplaceAux pat repl fuel l = pyReplaceAux pat repl l.length l := by
  intro fuel
  induction fuel using Nat.strong_induction_on with
  | _ fuel ih =>
    match fuel with
    | 0 =>
      intro l hl
      have : l = [] := List.eq_nil_of_length_eq_zero (Nat.le_zero.mp hl)
      subst this; rfl
    | fuel + 1 =>
      intro l hl
      match l with
      | [] => rfl
      | c :: t =>
        have ht : t.length ≤ fuel := by
          simpa [Nat.succ_le_succ_iff] using hl
        simp only [List.length_cons, pyReplaceAux]
        by_cases hp : pat.isPrefixOf (c :: t) = true
        · simp only [hp, if_true]
          have hd : (t.drop (pat.length - 1)).length ≤ t.length := by
            rw [List.length_drop]; omega
          rw [ih fuel (Nat.lt_succ_self _) _ (le_trans hd ht),
            ih t.length (by omega) _ hd]
        · simp only [hp, Bool.false_eq_true, if_false]
          rw [ih fuel (Nat.lt_succ_self _) _ ht]

theorem pyReplace_cons (pat repl : List Char) (c : Char) (t : List Char) :
    pyReplace pat repl (c :: t) =
      if pat.isPrefixOf (c :: t) = true then
        repl ++ pyReplace pat repl (t.drop (pat.length - 1))
      else c :: pyReplace pat repl t := by
  show pyReplaceAux pat repl (c :: t).length (c :: t) = _
  simp only [List.length_cons, pyReplaceAux]
  by_cases hp : pat.isPrefixOf (c :: t) = true
  · simp only [hp, if_true]
    rw [pyReplaceAux_fuel pat repl t.length _ (by rw [List.length_drop]; omega)]
    rfl
  · simp only [hp, if_false]
    rfl

theorem pyReplace_app_self {pat : List Char} (repl x : List Char) (hp : pat ≠ []) :
    pyReplace pat repl (pat ++ x) = repl ++ pyReplace pat repl x := by
  match pat, hp with
  | p0 :: pt, _ =>
    rw [List.cons_append, pyReplace_cons]
    have hpre := isPrefixOf_app_self (p0 :: pt) x
    rw [List.cons_append] at hpre
    simp only [hpre, if_true]
    have : (pt ++ x).drop ((p0 :: pt).length - 1) = x := by
      simp [List.drop_left]
    rw [this]

theorem pyReplace_of_not_contains {pat : List Char} (repl : List Char) {l : List Char}
    (h : containsTok pat l = false) : pyReplace pat repl l = l := by
  induction l with
  | nil => rfl
  | cons c t ih =>
    have h' : pat.isPrefixOf (c :: t) = false ∧ containsTok pat t = false := by
      rw [containsTok, Bool.or_eq_false_iff] at h
      exact h
    rw [pyReplace_cons]
    simp [h'.1, ih h'.2]

theorem dropWhile_app_ne {P : Char → Bool} {a : List Char} (b : List Char)
    (h : a.dropWhile P ≠ []) : (a ++ b).dropWhile P = a.dropWhile P ++ b := by
  induction a with
  | nil => simp at h
  | cons c t ih =>
    by_cases hc : P c = true
    · simp only [List.dropWhile_cons, hc, if_true] at h ⊢
      rw [List.cons_append]
      simp only [List.dropWhile_cons, hc, if_true]
      exact ih h
    · rw [Bool.not_eq_true] at hc
      rw [List.cons_append]
      simp [List.dropWhile_cons, hc]

theorem dropWhile_idem {P : Char → Bool} (l : List Char) :
    (l.dropWhile P).dropWhile P = l.dropWhile P := by
  induction l with
  | nil => rfl
  | cons c t ih =>
    by_cases hc : P c = true
    · simp [List.dropWhile_cons, hc, ih]
    · rw [Bool.not_eq_true] at hc
      simp [List.dropWhile_cons, hc]

theorem lstrip_cons (c : Char) (t : List Char) :
    lstrip (c :: t) = if isSpace c = true then lstrip t else c :: t := by
  by_cases hc : isSpace c = true
  · simp [lstrip, List.dropWhile_cons, hc]
  · rw [Bool.not_eq_true] at hc
    simp [lstrip, List.dropWhile_cons, hc]

theorem rstrip_cons (c : Char) (t : List Char) :
    rstrip (c :: t) =
      if rstrip t = [] then (if isSpace c = true then [] else [c])
      else c :: rstrip t := by
  unfold rstrip
  rw [show (c :: t).reverse = t.reverse ++ [c] by simp]
  by_cases hrt : t.reverse.dropWhile isSpace = []
  · rw [dropWhile_app_all _ (List.dropWhile_eq_nil_iff.mp hrt), hrt]
    simp only [List.reverse_nil, if_true]
    by_cases hc : isSpace c = true
    · simp [List.dropWhile_cons, hc, List.dropWhile_nil]
    · rw [Bool.not_eq_true] at hc
      simp [List.dropWhile_cons, hc]
  · rw [dropWhile_app_ne _ hrt]
    have hne : ¬ (t.reverse.dropWhile isSpace).reverse = [] := by
      simpa [List.reverse_eq_nil_iff] using hrt
    simp [hne]

theorem rstrip_app {x : List Char} (y : List Char) (h : rstrip x = x) :
    rstrip (x ++ y) = x ++ rstrip y := by
  unfold rstrip at *
  rw [List.reverse_append]
  by_cases hy : y.reverse.dropWhile isSpace = []
  · rw [dropWhile_app_all _ (List.dropWhile_eq_nil_iff.mp hy), hy, h]
    simp
  · rw [dropWhile_app_ne _ hy]
    simp

theorem rstrip_idem (l : List Char) : rstrip (rstrip l) = rstrip l := by
  unfold rstrip
  rw [List.reverse_reverse, dropWhile_idem]

theorem lstrip_idem (l : List Char) : lstrip (lstrip l) = lstrip l :=
  dropWhile_idem l

theorem lstrip_rstrip_comm (l : List Char) : lstrip (rstrip l) = rstrip (lstrip l) := by
  induction l with
  | nil => rfl
  | cons c t ih =>
    rw [rstrip_cons, lstrip_cons]
    by_cases hc : isSpace c = true
    · simp only [hc, if_true]
      by_cases hrt : rstrip t = []
      · simp only [hrt, if_true]
        rw [← ih, hrt]
      · simp only [hrt, if_false]
        rw [lstrip_cons]
        simp only [hc, if_true]
        exact ih
    · have hc' : isSpace c = false := Bool.not_eq_true _ |>.mp hc
      simp only [hc', Bool.false_eq_true, if_false, hc]
      by_cases hrt : rstrip t = []
      · simp only [hrt, if_true]
        rw [rstrip_cons, show lstrip [c] = [c] by simp [lstrip, List.dropWhile_cons, hc'], hrt]
        simp [hc']
      · simp only [hrt, if_false]
        rw [lstrip_cons]
        simp only [hc', Bool.false_eq_true, if_false]
        rw [rstrip_cons, if_neg hrt]

theorem pyStrip_rstrip (l : List Char) : pyStrip (rstrip l) = pyStrip l := by
  unfold pyStrip
  rw [lstrip_rstrip_comm, rstrip_idem]

theorem pyStrip_idem (l : List Char) : pyStrip (pyStrip l) = pyStrip l := by
  show pyStrip (rstrip (lstrip l)) = pyStrip l
  rw [pyStrip_rstrip]
  show rstrip (lstrip (lstrip l)) = pyStrip l
  rw [lstrip_idem]
  rfl

theorem any_dropWhile {P Q : Char → Bool} {l : List Char}
    (h : ∀ c, Q c = true → P c = false) : (l.dropWhile Q).any P = l.any P := by
  induction l with
  | nil => rfl
  | cons c t ih =>
    by_cases hc : Q c = true
    · simp [List.dropWhile_cons, hc, ih, List.any_cons, h c hc]
    · rw [Bool.not_eq_true] at hc
      simp [List.dropWhile_cons, hc]

theorem any_reverse {P : Char → Bool} (l : List Char) :
    l.reverse.any P = l.any P := by
  induction l with
  | nil => rfl
  | cons c t ih => simp [List.any_append, ih, Bool.or_comm]

theorem isSpace_not_digit : ∀ c : Char, isSpace c = true → c.isDigit = false := by
  intro c h
  simp only [isSpace, Bool.or_eq_true, decide_eq_true_eq] at h
  rcases h with ((((rfl | rfl) | rfl) | rfl) | rfl) | rfl <;> decide

theorem any_digit_rstrip (l : List Char) :
    (rstrip l).any Char.isDigit = l.any Char.isDigit := by
  unfold rstrip
  rw [any_reverse, any_dropWhile isSpace_not_digit, any_reverse]

theorem any_digit_pyStrip (l : List Char) :
    (pyStrip l).any Char.isDigit = l.any Char.isDigit := by
  unfold pyStrip lstrip
  rw [any_digit_rstrip, any_dropWhile isSpace_not_digit]

theorem splitLines_no_nl {l : List Char} (h : '\n' ∉ l) : splitLines l = [l] := by
  induction l with
  | nil => rfl
  | cons c t ih =>
    have hc : ¬ c = '\n' := fun hh => h (hh ▸ List.mem_cons_self c t)
    rw [splitLines, if_neg hc, ih fun ht => h (List.mem_cons_of_mem c ht)]

theorem splitLines_app {l : List Char} (rest : List Char) (h : '\n' ∉ l) :
    splitLines (l ++ '\n' :: rest) = l :: splitLines rest := by
  induction l with
  | nil => simp [splitLines]
  | cons c t ih =>
    have hc : ¬ c = '\n' := fun hh => h (hh ▸ List.mem_cons_self c t)
    rw [List.cons_append, splitLines, if_neg hc,
      ih fun ht => h (List.mem_cons_of_mem c ht)]

theorem joinNL_cons (l l2 : List Char) (ls : List (List Char)) :
    joinNL (l :: l2 :: ls) = l ++ '\n' :: joinNL (l2 :: ls) := rfl

theorem reSearch_none_iff {α : Type} {f : List Char → Option α} {l : List Char} :
    reSearch f l = none ↔ ∀ i, f (l.drop i) = none := by
  induction l with
  | nil =>
    simp only [reSearch, List.drop_nil]
    exact ⟨fun h i => h, fun h => h 0⟩
  | cons c t ih =>
    constructor
    · intro h i
      rw [reSearch] at h
      cases hf : f (c :: t) with
      | some m => rw [hf] at h; cases h
      | none =>
        rw [hf] at h
        cases i with
        | zero => simpa using hf
        | succ i => rw [List.drop_succ_cons]; exact ih.mp h i
    · intro h
      rw [reSearch]
      have h0 : f (c :: t) = none := by simpa using h 0
      rw [h0]
      exact ih.mpr fun i => by simpa using h (i + 1)

theorem reSearch_some_of {α : Type} {f : List Char → Option α} {l : List Char}
    {i : Nat} {m : α} (hi : f (l.drop i) = some m)
    (hmin : ∀ j < i, f (l.drop j) = none) : reSearch f l = some m := by
  induction l generalizing i with
  | nil =>
    rw [List.drop_nil] at hi
    rw [reSearch, hi]
  | cons c t ih =>
    cases i with
    | zero =>
      rw [List.drop_zero] at hi
      rw [reSearch, hi]
    | succ i =>
      have h0 : f (c :: t) = none := by simpa using hmin 0 (Nat.succ_pos _)
      rw [reSearch, h0]
      exact ih (by simpa using hi) fun j hj => by
        simpa using hmin (j + 1) (Nat.succ_lt_succ hj)

theorem reSearch_some_spec {α : Type} {f : List Char → Option α} {l : List Char}
    {m : α} (h : reSearch f l = some m) :
    ∃ i, i ≤ l.length ∧ f (l.drop i) = some m ∧ ∀ j < i, f (l.drop j) = none := by
  induction l with
  | nil =>
    rw [reSearch] at h
    exact ⟨0, Nat.le_refl 0, by simpa using h, fun j hj => absurd hj (Nat.not_lt_zero j)⟩
  | cons c t ih =>
    rw [reSearch] at h
    cases hf : f (c :: t) with
    | some m' =>
      rw [hf] at h
      exact ⟨0, Nat.zero_le _, by simpa using hf.trans h,
        fun j hj => absurd hj (Nat.not_lt_zero j)⟩
    | none =>
      rw [hf] at h
      rcases ih h with ⟨i, hlen, hi, hmin⟩
      refine ⟨i + 1, by simpa using Nat.succ_le_succ hlen, by simpa using hi, fun j hj => ?_⟩
      cases j with
      | zero => simpa using hf
      | succ j => simpa using hmin j (Nat.lt_of_succ_lt_succ hj)

/-! ## Score extraction lemmas -/

theorem isDigit_not_space : ∀ c : Char, c.isDigit = true → isSpace c = false := by
  intro c hd
  by_cases hs : isSpace c = true
  · rw [isSpace_not_digit c hs] at hd; cases hd
  · exact Bool.not_eq_true _ |>.mp hs

theorem scoreMatchAt_pattern {l : List Char} :
    scoreMatchAt l ≠ none ↔
      ∃ ws c, initSeg (scoreTok ++ ws ++ [c]) l ∧
        (∀ x ∈ ws, isSpace x = true) ∧ c.isDigit = true := by
  constructor
  · intro h
    unfold scoreMatchAt at h
    by_cases hp : scoreTok.isPrefixOf l = true
    case neg => simp [hp] at h
    case pos =>
      simp only [hp, if_true] at h
      by_cases hdn : ((l.drop scoreTok.length).dropWhile isSpace).takeWhile Char.isDigit = []
      · simp [hdn] at h
      · rcases isPrefixOf_iff_initSeg.mp hp with ⟨rest0, hrest0⟩
        have hr : l.drop scoreTok.length = rest0 := by
          rw [← hrest0]; exact List.drop_left _ _
        rw [hr] at hdn
        cases hc2 : rest0.dropWhile isSpace with
        | nil => rw [hc2] at hdn; simp [List.takeWhile] at hdn
        | cons c r2 =>
          rw [hc2] at hdn
          by_cases hcd : c.isDigit = true
          · refine ⟨rest0.takeWhile isSpace, c, ⟨r2, ?_⟩, fun x hx => mem_of_mem_takeWhile hx, hcd⟩
            rw [← hrest0]
            rw [List.append_assoc, List.append_assoc]
            congr 1
            rw [← List.append_assoc]
            rw [show (rest0.takeWhile isSpace ++ [c]) ++ r2 = rest0.takeWhile isSpace ++ (c :: r2) by simp]
            rw [← hc2]
            exact List.takeWhile_append_dropWhile isSpace rest0
          · rw [Bool.not_eq_true] at hcd
            simp [List.takeWhile, hcd] at hdn
  · rintro ⟨ws, c, ⟨t, ht⟩, hws, hc⟩
    unfold scoreMatchAt
    have hp : scoreTok.isPrefixOf l = true := by
      refine isPrefixOf_iff_initSeg.mpr ⟨ws ++ [c] ++ t, ?_⟩
      rw [← ht]; simp
    simp only [hp, if_true]
    have hdrop : l.drop scoreTok.length = ws ++ [c] ++ t := by
      rw [← ht, show scoreTok ++ ws ++ [c] ++ t = scoreTok ++ (ws ++ [c] ++ t) by simp]
      exact List.drop_left _ _
    rw [hdrop]
    have hstep : (ws ++ [c] ++ t).dropWhile isSpace = c :: t := by
      rw [show ws ++ [c] ++ t = ws ++ (c :: t) by simp]
      exact dropWhile_app_of t hws (isDigit_not_space c hc)
    rw [hstep]
    have hstep2 : (c :: t).takeWhile Char.isDigit = c :: t.takeWhile Char.isDigit := by
      simp [List.takeWhile, hc]
    rw [hstep2]
    simp

theorem scoreMatchAt_compute {ws d : List Char} (r : List Char)
    (hws : ∀ x ∈ ws, isSpace x = true) (hdne : d ≠ [])
    (hd : ∀ x ∈ d, x.isDigit = true)
    (hr : ∀ c r2, r = c :: r2 → c.isDigit = false) :
    scoreMatchAt (scoreTok ++ (ws ++ (d ++ r))) = some (digitsVal d) := by
  unfold scoreMatchAt
  have hp : scoreTok.isPrefixOf (scoreTok ++ (ws ++ (d ++ r))) = true :=
    isPrefixOf_app_self _ _
  simp only [hp, if_true, List.drop_left]
  cases d with
  | nil => exact absurd rfl hdne
  | cons c0 d' =>
    have hstep : (ws ++ (c0 :: d' ++ r)).dropWhile isSpace = c0 :: (d' ++ r) := by
      rw [show ws ++ (c0 :: d' ++ r) = ws ++ (c0 :: (d' ++ r)) by simp]
      exact dropWhile_app_of _ hws (isDigit_not_space c0 (hd c0 (by simp)))
    rw [show ws ++ ((c0 :: d') ++ r) = ws ++ (c0 :: d' ++ r) by simp, hstep]
    have hstep2 : (c0 :: (d' ++ r)).takeWhile Char.isDigit = c0 :: d' := by
      have hall : ∀ x ∈ d', x.isDigit = true := fun x hx => hd x (by simp [hx])
      cases hrr : r with
      | nil =>
        subst hrr
        simp only [List.append_nil, List.takeWhile, hd c0 (by simp)]
        exact congrArg (c0 :: ·) (takeWhile_all hall)
      | cons rc rr =>
        subst hrr
        simp only [List.takeWhile, hd c0 (by simp)]
        rw [takeWhile_app_of rr hall (hr rc rr rfl)]
    rw [hstep2]
    simp

/-! ## Claim C2 -/

/-- C2: for every analysis string, `extract_score_from_analysis` returns the
first integer following the literal token `Score:` (optionally separated by
whitespace): when no such pattern occurs anywhere the result is 0, and when
the pattern first occurs at a position (no earlier occurrence), the result is
the value of the maximal digit run following the token there — with no bound
enforced against the 0-100 range (the digit run's value is returned as is, as
the 987 witness shows). -/
theorem extract_score_from_analysis_spec (s : List Char) :
    ((∀ i, ¬ ScorePatternAt s i) → extract_score_from_analysis s = 0) ∧
    (∀ a ws d r, s = a ++ scoreTok ++ ws ++ d ++ r →
      (∀ x ∈ ws, isSpace x = true) → d ≠ [] → (∀ x ∈ d, x.isDigit = true) →
      (∀ c r2, r = c :: r2 → c.isDigit = false) →
      (∀ j, j < a.length → ¬ ScorePatternAt s j) →
      extract_score_from_analysis s = digitsVal d) := by
  constructor
  · intro h
    have hnone : reSearch scoreMatchAt s = none := by
      apply reSearch_none_iff.mpr
      intro i
      by_cases hm : scoreMatchAt (s.drop i) = none
      · exact hm
      · exact absurd (scoreMatchAt_pattern.mp hm) (h i)
    unfold extract_score_from_analysis
    rw [hnone]
    rfl
  · intro a ws d r hs hws hdne hd hr hmin
    have hdrop : s.drop a.length = scoreTok ++ (ws ++ (d ++ r)) := by
      rw [hs, show a ++ scoreTok ++ ws ++ d ++ r = a ++ (scoreTok ++ (ws ++ (d ++ r))) by simp]
      exact List.drop_left _ _
    have hmatch : scoreMatchAt (s.drop a.length) = some (digitsVal d) := by
      rw [hdrop]; exact scoreMatchAt_compute r hws hdne hd hr
    have hnone : ∀ j, j < a.length → scoreMatchAt (s.drop j) = none := by
      intro j hj
      by_cases hm : scoreMatchAt (s.drop j) = none
      · exact hm
      · exact absurd (scoreMatchAt_pattern.mp hm) (hmin j hj)
    unfold extract_score_from_analysis
    rw [reSearch_some_of hmatch hnone]
    rfl

/-- Witness for C2: a reply carrying `Score: 987` yields 987 (no 0-100 bound),
and a reply with no score token yields 0. -/
theorem extract_score_from_analysis_spec_witness :
    extract_score_from_analysis "Score: 987".toList = 987 ∧
    extract_score_from_analysis "no score here".toList = 0 := by
  constructor
  · have h := (extract_score_from_analysis_spec "Score: 987".toList).2
      [] [' '] "987".toList [] (by decide) (by decide) (by decide) (by decide)
      (fun c r2 hcr => nomatch hcr) (fun j hj => absurd hj (Nat.not_lt_zero j))
    rw [h]; decide
  · have hn : reSearch scoreMatchAt "no score here".toList = none := by decide
    exact (extract_score_from_analysis_spec "no score here".toList).1
      (fun i hpat => (scoreMatchAt_pattern.mpr hpat) (reSearch_none_iff.mp hn i))

/-! ## Course parser lemmas -/

theorem isPrefixOf_head_ne {a b : Char} (as bs : List Char) (h : a ≠ b) :
    (a :: as).isPrefixOf (b :: bs) = false := by
  have hab : (a == b) = false := by
    simpa using h
  simp [List.isPrefixOf, hab]

theorem rstrip_initSeg (l : List Char) : initSeg (rstrip l) l := by
  refine ⟨(l.reverse.takeWhile isSpace).reverse, ?_⟩
  show (l.reverse.dropWhile isSpace).reverse ++ (l.reverse.takeWhile isSpace).reverse = l
  rw [← List.reverse_append, List.takeWhile_append_dropWhile isSpace l.reverse,
    List.reverse_reverse]

theorem containsTok_rstrip_false {pat raw : List Char}
    (h : containsTok pat raw = false) : containsTok pat (rstrip raw) = false := by
  by_cases hc : containsTok pat (rstrip raw) = true
  · rw [containsTok_initSeg (rstrip_initSeg raw) hc] at h; cases h
  · exact Bool.not_eq_true _ |>.mp hc

theorem pyStrip_tok_app {tok : List Char} (raw : List Char)
    (h0 : lstrip tok ≠ []) (h0e : lstrip tok = tok) (h1 : rstrip tok = tok) :
    pyStrip (tok ++ raw) = tok ++ rstrip raw := by
  unfold pyStrip
  have hl : lstrip (tok ++ raw) = tok ++ raw := by
    unfold lstrip at h0 h0e ⊢
    rw [dropWhile_app_ne raw h0, h0e]
  rw [hl, rstrip_app raw h1]

theorem not_mem_append {c : Char} {a b : List Char} (ha : c ∉ a) (hb : c ∉ b) :
    c ∉ a ++ b := by
  intro h
  rcases List.mem_append.mp h with h | h
  · exact ha h
  · exact hb h

theorem courseStep_course {st : ParseState} {hdr : List Char}
    (h : courseTok.isPrefixOf (pyStrip hdr) = true) :
    courseStep st hdr =
      ⟨if st.cur = Course.empty then st.recs else st.recs ++ [st.cur], Course.empty⟩ := by
  simp only [courseStep, h, if_true]

theorem courseStep_inert {st : ParseState} {l : List Char}
    (h1 : courseTok.isPrefixOf (pyStrip l) = false)
    (h2 : titleTok.isPrefixOf (pyStrip l) = false)
    (h3 : descTok.isPrefixOf (pyStrip l) = false)
    (h4 : linkTok.isPrefixOf (pyStrip l) = false) :
    courseStep st l = st := by
  simp only [courseStep, h1, h2, h3, h4, Bool.false_eq_true, if_false]

theorem course_not_prefix_of_title (x : List Char) :
    courseTok.isPrefixOf (titleTok ++ x) = false := by
  show ('C' :: "ourse".toList).isPrefixOf ('T' :: ("itle:".toList ++ x)) = false
  exact isPrefixOf_head_ne _ _ (by decide)

theorem course_not_prefix_of_desc (x : List Char) :
    courseTok.isPrefixOf (descTok ++ x) = false := by
  show ('C' :: "ourse".toList).isPrefixOf ('D' :: ("escription:".toList ++ x)) = false
  exact isPrefixOf_head_ne _ _ (by decide)

theorem course_not_prefix_of_link (x : List Char) :
    courseTok.isPrefixOf (linkTok ++ x) = false := by
  show ('C' :: "ourse".toList).isPrefixOf ('L' :: ("ink:".toList ++ x)) = false
  exact isPrefixOf_head_ne _ _ (by decide)

theorem title_not_prefix_of_desc (x : List Char) :
    titleTok.isPrefixOf (descTok ++ x) = false := by
  show ('T' :: "itle:".toList).isPrefixOf ('D' :: ("escription:".toList ++ x)) = false
  exact isPrefixOf_head_ne _ _ (by decide)

theorem title_not_prefix_of_link (x : List Char) :
    titleTok.isPrefixOf (linkTok ++ x) = false := by
  show ('T' :: "itle:".toList).isPrefixOf ('L' :: ("ink:".toList ++ x)) = false
  exact isPrefixOf_head_ne _ _ (by decide)

theorem desc_not_prefix_of_link (x : List Char) :
    descTok.isPrefixOf (linkTok ++ x) = false := by
  show ('D' :: "escription:".toList).isPrefixOf ('L' :: ("ink:".toList ++ x)) = false
  exact isPrefixOf_head_ne _ _ (by decide)

theorem courseStep_title {st : ParseState} {raw : List Char}
    (hnc : containsTok titleTok raw = false) :
    courseStep st (titleTok ++ raw) =
      { st with cur := { st.cur with title := some (pyStrip raw) } } := by
  have hline : pyStrip (titleTok ++ raw) = titleTok ++ rstrip raw :=
    pyStrip_tok_app raw (by decide) (by decide) (by decide)
  unfold courseStep
  simp only [hline, course_not_prefix_of_title, Bool.false_eq_true, if_false,
    isPrefixOf_app_self, if_true]
  rw [pyReplace_app_self [] (rstrip raw) (by decide), List.nil_append,
    pyReplace_of_not_contains [] (containsTok_rstrip_false hnc), pyStrip_rstrip]

theorem courseStep_desc {st : ParseState} {raw : List Char}
    (hnc : containsTok descTok raw = false) :
    courseStep st (descTok ++ raw) =
      { st with cur := { st.cur with description := some (pyStrip raw) } } := by
  have hline : pyStrip (descTok ++ raw) = descTok ++ rstrip raw :=
    pyStrip_tok_app raw (by decide) (by decide) (by decide)
  unfold courseStep
  simp only [hline, course_not_prefix_of_desc, title_not_prefix_of_desc,
    Bool.false_eq_true, if_false, isPrefixOf_app_self, if_true]
  rw [pyReplace_app_self [] (rstrip raw) (by decide), List.nil_append,
    pyReplace_of_not_contains [] (containsTok_rstrip_false hnc), pyStrip_rstrip]

theorem courseStep_link {st : ParseState} {raw : List Char}
    (hnc : containsTok linkTok raw = false) :
    courseStep st (linkTok ++ raw) =
      { st with cur := { st.cur with link := some (pyStrip raw) } } := by
  have hline : pyStrip (linkTok ++ raw) = linkTok ++ rstrip raw :=
    pyStrip_tok_app raw (by decide) (by decide) (by decide)
  unfold courseStep
  simp only [hline, course_not_prefix_of_link, title_not_prefix_of_link,
    desc_not_prefix_of_link, Bool.false_eq_true, if_false, isPrefixOf_app_self, if_true]
  rw [pyReplace_app_self [] (rstrip raw) (by decide), List.nil_append,
    pyReplace_of_not_contains [] (containsTok_rstrip_false hnc), pyStrip_rstrip]

theorem courseStep_recs (st : ParseState) (l : List Char) :
    (courseStep st l).recs = st.recs ∨
      ((courseStep st l).recs = st.recs ++ [st.cur] ∧ st.cur ≠ Course.empty) := by
  unfold courseStep
  by_cases hc : courseTok.isPrefixOf (pyStrip l) = true
  · simp only [hc, if_true]
    by_cases hcur : st.cur = Course.empty
    · left; simp [hcur]
    · right; exact ⟨by simp [hcur], hcur⟩
  · simp only [hc, Bool.false_eq_true, if_false]
    by_cases ht : titleTok.isPrefixOf (pyStrip l) = true
    · simp [ht]
    · simp only [ht, Bool.false_eq_true, if_false]
      by_cases hd : descTok.isPrefixOf (pyStrip l) = true
      · simp [hd]
      · simp only [hd, Bool.false_eq_true, if_false]
        by_cases hl : linkTok.isPrefixOf (pyStrip l) = true
        · simp [hl]
        · simp [hl]

theorem foldl_recs_invariant (lines : List (List Char)) :
    ∀ st : ParseState, (∀ c ∈ st.recs, c ≠ Course.empty) →
      ∀ c ∈ (List.foldl courseStep st lines).recs, c ≠ Course.empty := by
  induction lines with
  | nil => intro st h; simpa using h
  | cons l ls ih =>
    intro st h
    rw [List.foldl_cons]
    apply ih
    rcases courseStep_recs st l with h1 | ⟨h1, h2⟩
    · rw [h1]; exact h
    · rw [h1]
      intro c hc
      rcases List.mem_append.mp hc with hc | hc
      · exact h c hc
      · rw [List.mem_singleton] at hc
        subst hc
        exact h2

theorem courseLoop_recs_nonempty (lines : List (List Char)) :
    ∀ c ∈ (courseLoop lines).recs, c ≠ Course.empty :=
  foldl_recs_invariant lines ⟨[], Course.empty⟩ (by intro c hc; cases hc)

/-! ## Claim C1 -/

/-- C1 (amended): for a well-formed three-course reply in the documented
template whose field contents span one line and do not themselves contain
their own field token, the parser returns exactly the three entries with
title, description and link equal to the corresponding line contents with the
prefix stripped and whitespace trimmed; and any reply from which zero entries
are recovered yields the fixed fallback list, unmodified. (The token-free
proviso is forced by the code's use of `replace`, which removes every
occurrence of the token, not just the leading one — see the
counterexample.) -/
theorem get_course_recommendations_template_spec :
    (∀ t1 d1 l1 t2 d2 l2 t3 d3 l3 : List Char,
      cleanContent titleTok t1 → cleanContent descTok d1 → cleanContent linkTok l1 →
      cleanContent titleTok t2 → cleanContent descTok d2 → cleanContent linkTok l2 →
      cleanContent titleTok t3 → cleanContent descTok d3 → cleanContent linkTok l3 →
      get_course_recommendations (templateReply t1 d1 l1 t2 d2 l2 t3 d3 l3) =
        [⟨some (pyStrip t1), some (pyStrip d1), some (pyStrip l1)⟩,
         ⟨some (pyStrip t2), some (pyStrip d2), some (pyStrip l2)⟩,
         ⟨some (pyStrip t3), some (pyStrip d3), some (pyStrip l3)⟩]) ∧
    (∀ reply, parsedCourses reply = [] →
      get_course_recommendations reply = fallbackCourses) := by
  constructor
  · intro t1 d1 l1 t2 d2 l2 t3 d3 l3 h1 h2 h3 h4 h5 h6 h7 h8 h9
    have hsplit : splitLines (templateReply t1 d1 l1 t2 d2 l2 t3 d3 l3) =
        ["Course 1:".toList, titleTok ++ t1, descTok ++ d1, linkTok ++ l1, [],
         "Course 2:".toList, titleTok ++ t2, descTok ++ d2, linkTok ++ l2, [],
         "Course 3:".toList, titleTok ++ t3, descTok ++ d3, linkTok ++ l3] := by
      unfold templateReply
      simp only [joinNL]
      rw [splitLines_app _ (by decide),
        splitLines_app _ (not_mem_append (by decide) h1.1),
        splitLines_app _ (not_mem_append (by decide) h2.1),
        splitLines_app _ (not_mem_append (by decide) h3.1),
        splitLines_app _ (by decide),
        splitLines_app _ (by decide),
        splitLines_app _ (not_mem_append (by decide) h4.1),
        splitLines_app _ (not_mem_append (by decide) h5.1),
        splitLines_app _ (not_mem_append (by decide) h6.1),
        splitLines_app _ (by decide),
        splitLines_app _ (by decide),
        splitLines_app _ (not_mem_append (by decide) h7.1),
        splitLines_app _ (not_mem_append (by decide) h8.1),
        splitLines_no_nl (not_mem_append (by decide) h9.1)]
    have hblank : ∀ st : ParseState, courseStep st [] = st :=
      fun st => courseStep_inert (by decide) (by decide) (by decide) (by decide)
    unfold get_course_recommendations parsedCourses courseLoop
    rw [hsplit]
    simp only [List.foldl_cons, List.foldl_nil,
      courseStep_course (show courseTok.isPrefixOf (pyStrip ("Course 1:".toList)) = true by decide),
      courseStep_course (show courseTok.isPrefixOf (pyStrip ("Course 2:".toList)) = true by decide),
      courseStep_course (show courseTok.isPrefixOf (pyStrip ("Course 3:".toList)) = true by decide),
      hblank, courseStep_title h1.2, courseStep_desc h2.2, courseStep_link h3.2,
      courseStep_title h4.2, courseStep_desc h5.2, courseStep_link h6.2,
      courseStep_title h7.2, courseStep_desc h8.2, courseStep_link h9.2]
    simp [Course.empty]
  · intro reply h
    unfold get_course_recommendations
    rw [h]
    simp
    decide

/-- Counterexample for C1 as frozen: in a well-formed template reply whose
first title content is ` A Title: B`, the title field is not the line content
with the leading prefix stripped and trimmed (`A Title: B`); the code's
`replace` removes the second occurrence of the token as well, yielding
`A  B`. -/
theorem get_course_recommendations_verbatim_counterexample :
    (get_course_recommendations (templateReply " A Title: B".toList " D1".toList
        " L1".toList " T2".toList " D2".toList " L2".toList " T3".toList " D3".toList
        " L3".toList)).map Course.title ≠
      [some (pyStrip " A Title: B".toList), some (pyStrip " T2".toList),
       some (pyStrip " T3".toList)] ∧
    (get_course_recommendations (templateReply " A Title: B".toList " D1".toList
        " L1".toList " T2".toList " D2".toList " L2".toList " T3".toList " D3".toList
        " L3".toList)).map Course.title =
      [some "A  B".toList, some "T2".toList, some "T3".toList] := by
  constructor
  · decide
  · decide

/-- Witness for C1: a concrete clean template reply parses to its three
verbatim entries, and the empty reply falls back to the fixed list. -/
theorem get_course_recommendations_template_spec_witness :
    get_course_recommendations (templateReply " Python Basics".toList
        " Learn Python".toList " https://a.example".toList
        " SQL Fundamentals".toList " Learn SQL".toList " https://b.example".toList
        " Soft Skills".toList " Communication".toList " https://c.example".toList) =
      [⟨some "Python Basics".toList, some "Learn Python".toList, some "https://a.example".toList⟩,
       ⟨some "SQL Fundamentals".toList, some "Learn SQL".toList, some "https://b.example".toList⟩,
       ⟨some "Soft Skills".toList, some "Communication".toList, some "https://c.example".toList⟩] ∧
    get_course_recommendations [] = fallbackCourses := by
  constructor
  · have h := get_course_recommendations_template_spec.1
      " Python Basics".toList " Learn Python".toList " https://a.example".toList
      " SQL Fundamentals".toList " Learn SQL".toList " https://b.example".toList
      " Soft Skills".toList " Communication".toList " https://c.example".toList
      ⟨by decide, by decide⟩ ⟨by decide, by decide⟩ ⟨by decide, by decide⟩
      ⟨by decide, by decide⟩ ⟨by decide, by decide⟩ ⟨by decide, by decide⟩
      ⟨by decide, by decide⟩ ⟨by decide, by decide⟩ ⟨by decide, by decide⟩
    rw [h]
    decide
  · exact get_course_recommendations_template_spec.2 [] (by decide)

/-! ## Claim C6 -/

/-- C6 (amended): the entry under construction when the reply's lines run out
is appended exactly when it is non-empty (at least one field was assigned);
an empty `current_course` is dropped, not appended. -/
theorem parsedCourses_final_flush (reply : List Char) :
    ((courseLoop (splitLines reply)).cur ≠ Course.empty →
      parsedCourses reply =
        (courseLoop (splitLines reply)).recs ++ [(courseLoop (splitLines reply)).cur]) ∧
    ((courseLoop (splitLines reply)).cur = Course.empty →
      parsedCourses reply = (courseLoop (splitLines reply)).recs) := by
  constructor
  · intro h
    unfold parsedCourses
    simp [h]
  · intro h
    unfold parsedCourses
    simp [h]

/-- Counterexample for C6 as frozen: after `Course 1:`, `Title: A`,
`Course 2:`, the entry under construction at the end of input is the freshly
reset empty dict, and it is not appended: the result has one entry, not the
two that an unconditional flush would produce. -/
theorem parsedCourses_unconditional_flush_counterexample :
    parsedCourses "Course 1:\nTitle: A\nCourse 2:".toList ≠
      (courseLoop (splitLines "Course 1:\nTitle: A\nCourse 2:".toList)).recs ++
        [(courseLoop (splitLines "Course 1:\nTitle: A\nCourse 2:".toList)).cur] ∧
    parsedCourses "Course 1:\nTitle: A\nCourse 2:".toList =
      [⟨some "A".toList, none, none⟩] := by
  constructor
  · decide
  · decide

/-- Witness for C6: a reply whose final entry is non-empty does get it
flushed. -/
theorem parsedCourses_final_flush_witness :
    parsedCourses "Title: A".toList =
      (courseLoop (splitLines "Title: A".toList)).recs ++
        [(courseLoop (splitLines "Title: A".toList)).cur] :=
  (parsedCourses_final_flush "Title: A".toList).1 (by decide)

/-! ## Claim C9 -/

/-- C9 (amended): for every reply, `get_course_recommendations` returns at
most three entries, and every returned entry is non-empty (has at least one
of the three fields assigned); entries parsed from a partial reply may lack
some of the fields, as the counterexample shows, so "all three fields
present" holds only for the fallback entries, not in general. -/
theorem get_course_recommendations_shape (reply : List Char) :
    (get_course_recommendations reply).length ≤ 3 ∧
    ∀ c ∈ get_course_recommendations reply, c ≠ Course.empty := by
  constructor
  · show ((if parsedCourses reply = [] then fallbackCourses else parsedCourses reply).take 3).length ≤ 3
    rw [List.length_take]
    exact Nat.min_le_left _ _
  · intro c hc
    replace hc : c ∈ (if parsedCourses reply = [] then fallbackCourses
        else parsedCourses reply).take 3 := hc
    have hc' := List.mem_of_mem_take hc
    by_cases hp : parsedCourses reply = []
    · rw [if_pos hp] at hc'
      simp only [fallbackCourses, List.mem_cons, List.not_mem_nil, or_false] at hc'
      rcases hc' with rfl | rfl | rfl <;> decide
    · rw [if_neg hp] at hc'
      replace hc' : c ∈ (if (courseLoop (splitLines reply)).cur = Course.empty
          then (courseLoop (splitLines reply)).recs
          else (courseLoop (splitLines reply)).recs ++ [(courseLoop (splitLines reply)).cur]) := hc'
      by_cases hcur : (courseLoop (splitLines reply)).cur = Course.empty
      · rw [if_pos hcur] at hc'
        exact courseLoop_recs_nonempty _ c hc'
      · rw [if_neg hcur] at hc'
        rcases List.mem_append.mp hc' with h | h
        · exact courseLoop_recs_nonempty _ c h
        · rw [List.mem_singleton] at h
          subst h
          exact hcur

/-- Counterexample for C9 as frozen: the reply `Title: A` produces one entry
whose description and link fields are absent. -/
theorem get_course_recommendations_fields_counterexample :
    ∃ c ∈ get_course_recommendations "Title: A".toList,
      c.description = none ∧ c.link = none := by
  decide

/-- Witness for C9: the empty reply returns the three fallback entries, each
non-empty. -/
theorem get_course_recommendations_shape_witness :
    (get_course_recommendations []).length ≤ 3 ∧
    (⟨some "Professional Development Course".toList,
      some "Enhance your professional skills with this comprehensive course.".toList,
      some "https://www.coursera.org/learn/professional-development".toList⟩ : Course) ≠
      Course.empty :=
  ⟨(get_course_recommendations_shape []).1,
   (get_course_recommendations_shape []).2 _ (by decide)⟩

/-! ## Claim C4 -/

/-- C4: the three upload validations answer 400 with their respective
messages, are applied in order (an empty filename is reported as such even if
the extension is also wrong, since the extension check only runs on a
nonempty filename), the suffix test is plain case-sensitive `endswith`, and
in all three cases the scratch-file state still records that nothing was
saved. -/
theorem analyze_validation_spec (req : AnalyzeRequest) (env : PipelineEnv) :
    (req.resume = none → analyze req env = (.err 400 noFileMsg, ⟨false, false⟩)) ∧
    (∀ f, req.resume = some f → f.filename = [] →
      analyze req env = (.err 400 noSelectMsg, ⟨false, false⟩)) ∧
    (∀ f, req.resume = some f → f.filename ≠ [] →
      pdfExt.isSuffixOf f.filename = false →
      analyze req env = (.err 400 onlyPdfMsg, ⟨false, false⟩)) := by
  refine ⟨?_, ?_, ?_⟩
  · intro h
    unfold analyze
    rw [h]
  · intro f hf he
    unfold analyze
    rw [hf]
    simp [he]
  · intro f hf hne hs
    unfold analyze
    rw [hf]
    simp [hne, hs]

/-- Witness for C4: the three rejections at concrete requests, including the
case-sensitivity of the suffix check (`RESUME.PDF` is rejected). -/
theorem analyze_validation_spec_witness :
    analyze ⟨none⟩ ⟨.ok [], .ok [], .ok []⟩ = (.err 400 noFileMsg, ⟨false, false⟩) ∧
    analyze ⟨some ⟨[]⟩⟩ ⟨.ok [], .ok [], .ok []⟩ = (.err 400 noSelectMsg, ⟨false, false⟩) ∧
    analyze ⟨some ⟨"resume.txt".toList⟩⟩ ⟨.ok [], .ok [], .ok []⟩ =
      (.err 400 onlyPdfMsg, ⟨false, false⟩) ∧
    analyze ⟨some ⟨"RESUME.PDF".toList⟩⟩ ⟨.ok [], .ok [], .ok []⟩ =
      (.err 400 onlyPdfMsg, ⟨false, false⟩) := by
  refine ⟨?_, ?_, ?_, ?_⟩
  · exact (analyze_validation_spec _ _).1 rfl
  · exact (analyze_validation_spec _ _).2.1 _ rfl rfl
  · exact (analyze_validation_spec _ _).2.2 _ rfl (by decide) (by decide)
  · exact (analyze_validation_spec _ _).2.2 _ rfl (by decide) (by decide)

/-! ## Claim C5 -/

/-- C5: when the saved PDF's extracted text is empty after stripping, the
handler answers 500 with exactly the message that no text could be extracted
(and leaks the scratch file); and this is the only content-based validation:
any text that is nonempty after stripping flows through to the 200 response
whenever the two API calls succeed with nonempty replies. -/
theorem analyze_empty_text_spec (req : AnalyzeRequest) (f : UploadedFile)
    (env : PipelineEnv) (text : List Char)
    (hf : req.resume = some f) (hne : f.filename ≠ [])
    (hp : pdfExt.isSuffixOf f.filename = true) (ho : env.ocrText = .ok text) :
    (pyStrip text = [] →
      analyze req env = (.err 500 noTextMsg, ⟨true, false⟩)) ∧
    (pyStrip text ≠ [] →
      ∀ a r, env.analysisReply = .ok a → a ≠ [] → env.recsReply = .ok r → r ≠ [] →
        analyze req env =
          (.ok200 (extract_contact_info text).name (extract_contact_info text).email
            (extract_contact_info text).phone (extract_score_from_analysis a) a
            (get_course_recommendations r), ⟨true, true⟩)) := by
  constructor
  · intro hempty
    unfold analyze
    rw [hf]
    simp [hne, hp, ho, hempty]
  · intro hnempty a r ha hane hr hrne
    unfold analyze analyze_resume getCourseRecommendationsCall
    rw [hf]
    simp [hne, hp, ho, hnempty, ha, hane, hr, hrne]

/-- Witness for C5: a whitespace-only OCR result yields the 500 with the
no-text message; a nonempty one reaches the 200 payload. -/
theorem analyze_empty_text_spec_witness :
    analyze ⟨some ⟨"r.pdf".toList⟩⟩ ⟨.ok "  ".toList, .ok [], .ok []⟩ =
      (.err 500 noTextMsg, ⟨true, false⟩) ∧
    analyze ⟨some ⟨"r.pdf".toList⟩⟩
        ⟨.ok "John".toList, .ok "Score: 5".toList, .ok "x".toList⟩ =
      (.ok200 (extract_contact_info "John".toList).name
        (extract_contact_info "John".toList).email
        (extract_contact_info "John".toList).phone
        (extract_score_from_analysis "Score: 5".toList) "Score: 5".toList
        (get_course_recommendations "x".toList), ⟨true, true⟩) := by
  constructor
  · exact (analyze_empty_text_spec _ _ _ _ rfl (by decide) (by decide) rfl).1 (by decide)
  · exact (analyze_empty_text_spec _ _ _ _ rfl (by decide) (by decide) rfl).2 (by decide)
      "Score: 5".toList "x".toList rfl (by decide) rfl (by decide)

/-! ## Claim C7 -/

/-- C7: the scratch file is removed exactly when every pipeline stage
succeeds: the success path ends in state saved-and-removed with a 200
response, while every failure after the save (OCR exception, empty text,
analysis-API failure or empty reply, recommendation-API failure or empty
reply) answers 500 and leaves the file saved but never removed. -/
theorem analyze_cleanup_spec (req : AnalyzeRequest) (f : UploadedFile)
    (env : PipelineEnv) (hf : req.resume = some f) (hne : f.filename ≠ [])
    (hp : pdfExt.isSuffixOf f.filename = true) :
    (∀ text a r, env.ocrText = .ok text → pyStrip text ≠ [] →
      env.analysisReply = .ok a → a ≠ [] → env.recsReply = .ok r → r ≠ [] →
      (analyze req env).2 = ⟨true, true⟩ ∧
        ∃ nm em ph sc an rc, (analyze req env).1 = .ok200 nm em ph sc an rc) ∧
    (∀ e, env.ocrText = .error e →
      analyze req env = (.err 500 e, ⟨true, false⟩)) ∧
    (∀ text, env.ocrText = .ok text → pyStrip text = [] →
      analyze req env = (.err 500 noTextMsg, ⟨true, false⟩)) ∧
    (∀ text e, env.ocrText = .ok text → pyStrip text ≠ [] →
      env.analysisReply = .error e →
      analyze req env = (.err 500 e, ⟨true, false⟩)) ∧
    (∀ text, env.ocrText = .ok text → pyStrip text ≠ [] →
      env.analysisReply = .ok [] →
      analyze req env = (.err 500 emptyRespMsg, ⟨true, false⟩)) ∧
    (∀ text a e, env.ocrText = .ok text → pyStrip text ≠ [] →
      env.analysisReply = .ok a → a ≠ [] → env.recsReply = .error e →
      analyze req env = (.err 500 e, ⟨true, false⟩)) ∧
    (∀ text a, env.ocrText = .ok text → pyStrip text ≠ [] →
      env.analysisReply = .ok a → a ≠ [] → env.recsReply = .ok [] →
      analyze req env = (.err 500 emptyRespMsg, ⟨true, false⟩)) := by
  refine ⟨?_, ?_, ?_, ?_, ?_, ?_, ?_⟩
  · intro text a r ho hnempty ha hane hr hrne
    unfold analyze analyze_resume getCourseRecommendationsCall
    rw [hf]
    simp [hne, hp, ho, hnempty, ha, hane, hr, hrne]
  · intro e ho
    unfold analyze
    rw [hf]
    simp [hne, hp, ho]
  · intro text ho hempty
    unfold analyze
    rw [hf]
    simp [hne, hp, ho, hempty]
  · intro text e ho hnempty ha
    unfold analyze analyze_resume
    rw [hf]
    simp [hne, hp, ho, hnempty, ha]
  · intro text ho hnempty ha
    unfold analyze analyze_resume
    rw [hf]
    simp [hne, hp, ho, hnempty, ha]
  · intro text a e ho hnempty ha hane hr
    unfold analyze analyze_resume getCourseRecommendationsCall
    rw [hf]
    simp [hne, hp, ho, hnempty, ha, hane, hr]
  · intro text a ho hnempty ha hane hr
    unfold analyze analyze_resume getCourseRecommendationsCall
    rw [hf]
    simp [hne, hp, ho, hnempty, ha, hane, hr]

/-- Witness for C7: at a concrete request, success removes the scratch file,
while an OCR failure answers 500 with the file still on disk. -/
theorem analyze_cleanup_spec_witness :
    (analyze ⟨some ⟨"r.pdf".toList⟩⟩
        ⟨.ok "John".toList, .ok "Score: 5".toList, .ok "x".toList⟩).2 =
      ⟨true, true⟩ ∧
    analyze ⟨some ⟨"r.pdf".toList⟩⟩ ⟨.error "boom".toList, .ok [], .ok []⟩ =
      (.err 500 "boom".toList, ⟨true, false⟩) := by
  constructor
  · exact ((analyze_cleanup_spec _ _ _ rfl (by decide) (by decide)).1
      "John".toList "Score: 5".toList "x".toList rfl (by decide) rfl (by decide)
      rfl (by decide)).1
  · exact (analyze_cleanup_spec _ _ _ rfl (by decide) (by decide)).2.1
      "boom".toList rfl

/-! ## Claim C8 -/

theorem inner_line_foldl (ls : List (Option RawLine)) (acc : List Char) :
    ls.foldl
        (fun a l =>
          match l with
          | none => a
          | some r => if 2 ≤ r.size then a ++ r.text ++ ['\n'] else a)
        acc
      = acc ++ pageText (some ls) := by
  induction ls generalizing acc with
  | nil => simp [pageText, recognizedLines]
  | cons l ls ih =>
    cases l with
    | none =>
      rw [List.foldl_cons]
      show ls.foldl _ acc = _
      rw [ih acc]
      simp [pageText, recognizedLines, List.filterMap_cons]
    | some r =>
      rw [List.foldl_cons]
      by_cases hr : 2 ≤ r.size
      · show ls.foldl _ (if 2 ≤ r.size then acc ++ r.text ++ ['\n'] else acc) = _
        rw [if_pos hr, ih]
        simp [pageText, recognizedLines, List.filterMap_cons, hr]
      · show ls.foldl _ (if 2 ≤ r.size then acc ++ r.text ++ ['\n'] else acc) = _
        rw [if_neg hr, ih]
        simp [pageText, recognizedLines, List.filterMap_cons, hr]

theorem extract_foldl_acc (pages : List PageResult) :
    ∀ acc : List Char,
      pages.foldl
          (fun acc res =>
            match res with
            | none => acc
            | some ls =>
              ls.foldl
                (fun a l =>
                  match l with
                  | none => a
                  | some r => if 2 ≤ r.size then a ++ r.text ++ ['\n'] else a)
                acc)
          acc
        = acc ++ List.flatten (pages.map pageText) := by
  induction pages with
  | nil => intro acc; simp
  | cons p ps ih =>
    intro acc
    rw [List.foldl_cons]
    cases p with
    | none =>
      show ps.foldl _ acc = _
      rw [ih acc]
      simp [pageText, recognizedLines]
    | some ls =>
      show ps.foldl _ (ls.foldl _ acc) = _
      rw [ih, inner_line_foldl]
      simp

/-- C8: `extract_text_from_pdf` concatenates every recognized line of every
page, each followed by a newline, in engine order (the join of the per-page
contributions); a page whose engine result carries no lines (a `None` result
or an empty line list) contributes nothing and causes no error — the
function is total on such results by construction, and removing such a page
leaves the output unchanged. -/
theorem extract_text_from_pdf_spec :
    (∀ pages : List PageResult,
      extract_text_from_pdf pages = List.flatten (pages.map pageText)) ∧
    (∀ (a b : List PageResult) (p : PageResult), p = none ∨ p = some [] →
      extract_text_from_pdf (a ++ p :: b) = extract_text_from_pdf (a ++ b)) := by
  have hjoin : ∀ pages : List PageResult,
      extract_text_from_pdf pages = List.flatten (pages.map pageText) := by
    intro pages
    unfold extract_text_from_pdf
    rw [extract_foldl_acc pages []]
    simp
  refine ⟨hjoin, ?_⟩
  intro a b p hp
  have hzero : pageText p = [] := by
    rcases hp with rfl | rfl
    · rfl
    · rfl
  rw [hjoin, hjoin]
  simp [List.map_append, List.flatten_append, hzero]

/-- Witness for C8: removing a `None` page and an empty page from a concrete
page list leaves the extracted blob unchanged, and the join characterization
holds at a concrete list. -/
theorem extract_text_from_pdf_spec_witness :
    extract_text_from_pdf [some [some ⟨2, "hi".toList⟩], none, some []] =
      extract_text_from_pdf [some [some ⟨2, "hi".toList⟩], some []] ∧
    extract_text_from_pdf [some [some ⟨2, "hi".toList⟩]] =
      List.flatten ([some [some ⟨2, "hi".toList⟩]].map pageText) :=
  ⟨extract_text_from_pdf_spec.2 [some [some ⟨2, "hi".toList⟩]] [some []] none
      (Or.inl rfl),
   extract_text_from_pdf_spec.1 [some [some ⟨2, "hi".toList⟩]]⟩

/-! ## Claim C10 -/

/-- C10: `extract_contact_info` is a total function into the record with
exactly the fields name, email and phone (by the type of `ContactInfo`), and
whenever the name field is assigned it is a nonempty string, fixed under
whitespace trimming, containing no digit character. -/
theorem extract_contact_info_name_spec (text : List Char) :
    ∀ n, (extract_contact_info text).name = some n →
      n ≠ [] ∧ pyStrip n = n ∧ n.any Char.isDigit = false := by
  intro n hn
  have hname : (extract_contact_info text).name =
      (((splitLines text).take 5).find? nameLinePred).map pyStrip := rfl
  rw [hname] at hn
  rcases Option.map_eq_some'.mp hn with ⟨l, hfind, hpy⟩
  have hpred : nameLinePred l = true := List.find?_some hfind
  unfold nameLinePred at hpred
  rw [Bool.and_eq_true, Bool.not_eq_true', Bool.not_eq_true'] at hpred
  subst hpy
  refine ⟨?_, pyStrip_idem l, ?_⟩
  · intro hne
    rw [hne] at hpred
    simp at hpred
  · rw [any_digit_pyStrip]
    exact hpred.2

/-- Witness for C10: on a concrete blob, the extracted name is nonempty,
trim-fixed and digit-free. -/
theorem extract_contact_info_name_spec_witness :
    "John Doe".toList ≠ [] ∧ pyStrip "John Doe".toList = "John Doe".toList ∧
      ("John Doe".toList).any Char.isDigit = false :=
  extract_contact_info_name_spec "  John Doe \n12 Main St".toList
    "John Doe".toList (by decide)

/-! ## Email regex lemmas -/

theorem drop_takeWhile_length (P : Char → Bool) (l : List Char) :
    l.drop (l.takeWhile P).length = l.dropWhile P := by
  induction l with
  | nil => rfl
  | cons c t ih =>
    by_cases hc : P c = true
    · rw [show (c :: t).takeWhile P = c :: t.takeWhile P by simp [List.takeWhile, hc]]
      rw [List.length_cons, List.drop_succ_cons, ih]
      rw [show (c :: t).dropWhile P = t.dropWhile P by simp [List.dropWhile, hc]]
    · rw [Bool.not_eq_true] at hc
      rw [show (c :: t).takeWhile P = [] by simp [List.takeWhile, hc]]
      rw [show (c :: t).dropWhile P = c :: t by simp [List.dropWhile, hc]]
      rfl

theorem getD_app_length (a : List Char) (c : Char) (b : List Char) (d : Char) :
    (a ++ c :: b).getD a.length d = c := by
  induction a with
  | nil => rfl
  | cons x a' ih => simpa [List.getD_cons_succ] using ih

theorem drop_app_length_succ (a : List Char) (c : Char) (b : List Char) :
    (a ++ c :: b).drop (a.length + 1) = b := by
  rw [show a ++ c :: b = (a ++ [c]) ++ b by simp]
  rw [show a.length + 1 = (a ++ [c]).length by simp]
  exact List.drop_left _ _

theorem getD_dot_lt_length {R : List Char} {p : Nat} (h : R.getD p ' ' = '.') :
    p < R.length := by
  by_contra hge
  rw [List.getD_eq_default _ _ (Nat.le_of_not_lt hge)] at h
  cases h

theorem drop_eq_getD_cons {R : List Char} {p : Nat} (h : p < R.length) :
    R.drop p = R.getD p ' ' :: R.drop (p + 1) := by
  induction R generalizing p with
  | nil => simp at h
  | cons c t ih =>
    cases p with
    | zero => rfl
    | succ p =>
      rw [List.drop_succ_cons, List.getD_cons_succ,
        show (c :: t).drop (p + 1 + 1) = t.drop (p + 1) from List.drop_succ_cons]
      exact ih (by simpa using h)

theorem take_ne_nil {R : List Char} {p : Nat} (hp : 1 ≤ p) (hR : R ≠ []) :
    R.take p ≠ [] := by
  cases R with
  | nil => exact absurd rfl hR
  | cons c t =>
    cases p with
    | zero => omega
    | succ p => simp [List.take]

theorem isAlpha_isDomain : ∀ c : Char, c.isAlpha = true → isDomainChar c = true := by
  intro c h
  simp [isDomainChar, h]

theorem takeWhile_app_length_ge {P : Char → Bool} {xs : List Char} (b : List Char)
    (h : ∀ x ∈ xs, P x = true) : xs.length ≤ ((xs ++ b).takeWhile P).length := by
  rw [takeWhile_app_all b h]
  simp

theorem domainSplitAt_pos {R : List Char} {p : Nat}
    (hdot : R.getD p ' ' = '.')
    (hlen : 2 ≤ ((R.drop (p + 1)).takeWhile Char.isAlpha).length) :
    domainSplitAt R p =
      some (R.take p ++ '.' :: (R.drop (p + 1)).takeWhile Char.isAlpha) := by
  unfold domainSplitAt
  rw [if_pos hdot, if_pos hlen]

theorem domainSplitAt_some {R : List Char} {p : Nat} {dm : List Char}
    (h : domainSplitAt R p = some dm) :
    R.getD p ' ' = '.' ∧ 2 ≤ ((R.drop (p + 1)).takeWhile Char.isAlpha).length ∧
      dm = R.take p ++ '.' :: (R.drop (p + 1)).takeWhile Char.isAlpha := by
  unfold domainSplitAt at h
  by_cases h1 : R.getD p ' ' = '.'
  · rw [if_pos h1] at h
    by_cases h2 : 2 ≤ ((R.drop (p + 1)).takeWhile Char.isAlpha).length
    · rw [if_pos h2] at h
      injection h with h
      exact ⟨h1, h2, h.symm⟩
    · rw [if_neg h2] at h
      cases h
  · rw [if_neg h1] at h
    cases h

theorem domainSplitAux_ne_none {R : List Char} :
    ∀ k, (∃ p, 1 ≤ p ∧ p ≤ k ∧ domainSplitAt R p ≠ none) →
      domainSplitAux R k ≠ none := by
  intro k
  induction k with
  | zero =>
    rintro ⟨p, h1, h2, _⟩
    omega
  | succ k ih =>
    rintro ⟨p, h1, h2, h3⟩
    unfold domainSplitAux
    cases hsp : domainSplitAt R (k + 1) with
    | some m => simp
    | none =>
      simp only [hsp]
      apply ih
      by_cases hpk : p = k + 1
      · subst hpk
        exact absurd hsp h3
      · exact ⟨p, h1, by omega, h3⟩

theorem domainSplitAux_some {R : List Char} :
    ∀ k (dm : List Char), domainSplitAux R k = some dm →
      ∃ p, 1 ≤ p ∧ domainSplitAt R p = some dm := by
  intro k
  induction k with
  | zero => intro dm h; cases h
  | succ k ih =>
    intro dm h
    unfold domainSplitAux at h
    cases hsp : domainSplitAt R (k + 1) with
    | some m =>
      rw [hsp] at h
      injection h with h
      subst h
      exact ⟨k + 1, by omega, hsp⟩
    | none =>
      rw [hsp] at h
      exact ih dm h

theorem emailMatchAt_compute {loc : List Char} (rest : List Char) (hlocne : loc ≠ [])
    (hloc : ∀ c ∈ loc, isLocalChar c = true) :
    emailMatchAt (loc ++ '@' :: rest) =
      match domainMatch (rest.takeWhile isDomainChar) with
      | some dm => some (loc ++ '@' :: dm)
      | none => none := by
  unfold emailMatchAt
  have h1 : (loc ++ '@' :: rest).takeWhile isLocalChar = loc :=
    takeWhile_app_of _ hloc (by decide)
  rw [h1, if_neg hlocne, List.drop_left]
  rfl

theorem emailMatchAt_of_wf {e : List Char} (hwf : EmailWF e) (b : List Char) :
    emailMatchAt (e ++ b) ≠ none := by
  rcases hwf with ⟨loc, dom, tld, rfl, hlocne, hloc, hdomne, hdom, htldlen, htld⟩
  rw [show (loc ++ '@' :: (dom ++ '.' :: tld)) ++ b
      = loc ++ '@' :: ((dom ++ '.' :: tld) ++ b) by simp]
  rw [emailMatchAt_compute _ hlocne hloc]
  have hall : ∀ x ∈ dom ++ '.' :: tld, isDomainChar x = true := by
    intro x hx
    rcases (by simpa using hx : x ∈ dom ∨ x = '.' ∨ x ∈ tld) with h | h | h
    · exact hdom x h
    · rw [h]; decide
    · exact isAlpha_isDomain x (htld x h)
  have hR : ((dom ++ '.' :: tld) ++ b).takeWhile isDomainChar
      = dom ++ '.' :: (tld ++ b.takeWhile isDomainChar) := by
    rw [takeWhile_app_all b hall]
    simp
  rw [hR]
  have hsplit : domainSplitAt (dom ++ '.' :: (tld ++ b.takeWhile isDomainChar))
      dom.length ≠ none := by
    rw [domainSplitAt_pos (getD_app_length _ _ _ _) ?hlen]
    · simp
    case hlen =>
      rw [drop_app_length_succ]
      exact le_trans htldlen (takeWhile_app_length_ge _ htld)
  have hdm : domainMatch (dom ++ '.' :: (tld ++ b.takeWhile isDomainChar)) ≠ none := by
    unfold domainMatch
    apply domainSplitAux_ne_none
    refine ⟨dom.length, ?_, ?_, hsplit⟩
    · have := List.length_pos.mpr hdomne
      omega
    · simp only [List.length_append, List.length_cons]
      omega
  cases hdmv : domainMatch (dom ++ '.' :: (tld ++ b.takeWhile isDomainChar)) with
  | none => exact absurd hdmv hdm
  | some dm => simp

theorem emailMatchAt_sound {l m : List Char} (h : emailMatchAt l = some m) :
    EmailWF m ∧ initSeg m l := by
  unfold emailMatchAt at h
  by_cases hloc : l.takeWhile isLocalChar = []
  · rw [if_pos hloc] at h
    cases h
  · rw [if_neg hloc] at h
    split at h
    · rename_i rest heq
      split at h
      · rename_i dm hdm
        injection h with h
        subst h
        rcases domainSplitAux_some _ dm hdm with ⟨p, hp1, hsp⟩
        rcases domainSplitAt_some hsp with ⟨hdot, hlen, hdmeq⟩
        subst hdmeq
        have hplt : p < (rest.takeWhile isDomainChar).length := getD_dot_lt_length hdot
        have hRne : rest.takeWhile isDomainChar ≠ [] := by
          intro hnil
          rw [hnil] at hplt
          simp at hplt
        constructor
        · exact ⟨l.takeWhile isLocalChar, (rest.takeWhile isDomainChar).take p,
            ((rest.takeWhile isDomainChar).drop (p + 1)).takeWhile Char.isAlpha,
            rfl, hloc, fun c hc => mem_of_mem_takeWhile hc,
            take_ne_nil hp1 hRne,
            fun c hc => mem_of_mem_takeWhile (List.mem_of_mem_take hc),
            hlen, fun c hc => mem_of_mem_takeWhile hc⟩
        · have hlsplit : l = l.takeWhile isLocalChar ++ '@' :: rest := by
            have h2 := drop_takeWhile_length isLocalChar l
            rw [heq] at h2
            calc l = l.takeWhile isLocalChar ++ l.dropWhile isLocalChar :=
                  (List.takeWhile_append_dropWhile isLocalChar l).symm
              _ = l.takeWhile isLocalChar ++ '@' :: rest := by rw [← h2]
          have hRsplit : (rest.takeWhile isDomainChar).take p ++
              '.' :: ((rest.takeWhile isDomainChar).drop (p + 1)) =
              rest.takeWhile isDomainChar := by
            rw [show ('.' : Char) = (rest.takeWhile isDomainChar).getD p ' ' from hdot.symm]
            rw [← drop_eq_getD_cons hplt]
            exact List.take_append_drop p _
          have h1 : ((rest.takeWhile isDomainChar).drop (p + 1)).takeWhile Char.isAlpha ++
              (((rest.takeWhile isDomainChar).drop (p + 1)).dropWhile Char.isAlpha ++
                rest.dropWhile isDomainChar) =
              (rest.takeWhile isDomainChar).drop (p + 1) ++ rest.dropWhile isDomainChar := by
            rw [← List.append_assoc, List.takeWhile_append_dropWhile]
          have hgoal : ((rest.takeWhile isDomainChar).take p ++
                '.' :: ((rest.takeWhile isDomainChar).drop (p + 1)).takeWhile Char.isAlpha) ++
              ((((rest.takeWhile isDomainChar).drop (p + 1)).dropWhile Char.isAlpha) ++
                rest.dropWhile isDomainChar) = rest := by
            calc ((rest.takeWhile isDomainChar).take p ++
                  '.' :: ((rest.takeWhile isDomainChar).drop (p + 1)).takeWhile Char.isAlpha) ++
                ((((rest.takeWhile isDomainChar).drop (p + 1)).dropWhile Char.isAlpha) ++
                  rest.dropWhile isDomainChar)
                = (rest.takeWhile isDomainChar).take p ++
                  '.' :: (((rest.takeWhile isDomainChar).drop (p + 1)).takeWhile Char.isAlpha ++
                    (((rest.takeWhile isDomainChar).drop (p + 1)).dropWhile Char.isAlpha ++
                      rest.dropWhile isDomainChar)) := by simp
              _ = (rest.takeWhile isDomainChar).take p ++
                  '.' :: ((rest.takeWhile isDomainChar).drop (p + 1) ++
                    rest.dropWhile isDomainChar) := by rw [h1]
              _ = ((rest.takeWhile isDomainChar).take p ++
                  '.' :: (rest.takeWhile isDomainChar).drop (p + 1)) ++
                  rest.dropWhile isDomainChar := by simp
              _ = rest.takeWhile isDomainChar ++ rest.dropWhile isDomainChar := by
                    rw [hRsplit]
              _ = rest := List.takeWhile_append_dropWhile isDomainChar rest
          refine ⟨(((rest.takeWhile isDomainChar).drop (p + 1)).dropWhile Char.isAlpha) ++
            rest.dropWhile isDomainChar, ?_⟩
          conv_rhs => rw [hlsplit]
          calc (l.takeWhile isLocalChar ++
                '@' :: ((rest.takeWhile isDomainChar).take p ++
                  '.' :: ((rest.takeWhile isDomainChar).drop (p + 1)).takeWhile Char.isAlpha)) ++
              ((((rest.takeWhile isDomainChar).drop (p + 1)).dropWhile Char.isAlpha) ++
                rest.dropWhile isDomainChar)
              = l.takeWhile isLocalChar ++
                '@' :: (((rest.takeWhile isDomainChar).take p ++
                  '.' :: ((rest.takeWhile isDomainChar).drop (p + 1)).takeWhile Char.isAlpha) ++
                ((((rest.takeWhile isDomainChar).drop (p + 1)).dropWhile Char.isAlpha) ++
                  rest.dropWhile isDomainChar)) := by simp
            _ = l.takeWhile isLocalChar ++ '@' :: rest := by rw [hgoal]
      · cases h
    · cases h

/-! ## Phone regex lemmas -/

theorem consumesOnly_some : consumesOnly some := by
  intro l r h
  injection h with h
  exact ⟨[], by rw [h]; rfl⟩

theorem takeDigits_consumesOnly : ∀ n, consumesOnly (takeDigits n) := by
  intro n
  induction n with
  | zero =>
    intro l r h
    injection h with h
    exact ⟨[], by rw [h]; rfl⟩
  | succ n ih =>
    intro l r h
    cases l with
    | nil => cases h
    | cons c t =>
      unfold takeDigits at h
      by_cases hc : c.isDigit = true
      · rw [if_pos hc] at h
        rcases ih t r h with ⟨t0, ht0⟩
        exact ⟨c :: t0, by rw [List.cons_append, ht0]⟩
      · rw [if_neg hc] at h
        cases h

theorem exactDigits_consumesOnly {k : List Char → Option (List Char)}
    (hk : consumesOnly k) (n : Nat) : consumesOnly (exactDigits n k) := by
  intro l r h
  unfold exactDigits at h
  cases hd : takeDigits n l with
  | none => rw [hd] at h; cases h
  | some mid =>
    rw [hd] at h
    rcases takeDigits_consumesOnly n l mid hd with ⟨t1, ht1⟩
    rcases hk mid r h with ⟨t2, ht2⟩
    exact ⟨t1 ++ t2, by rw [List.append_assoc, ht2, ht1]⟩

theorem optPred_consumesOnly {k : List Char → Option (List Char)}
    (hk : consumesOnly k) (P : Char → Bool) : consumesOnly (optPred P k) := by
  intro l r h
  unfold optPred at h
  split at h
  · rename_i c t
    split at h
    · cases hkt : k t with
      | some r2 =>
        rw [hkt] at h
        injection h with h
        subst h
        rcases hk t r2 hkt with ⟨t1, ht1⟩
        exact ⟨c :: t1, by rw [List.cons_append, ht1]⟩
      | none =>
        rw [hkt] at h
        exact hk _ _ h
    · exact hk _ _ h
  · exact hk [] r h

theorem digits13_consumesOnly {k : List Char → Option (List Char)}
    (hk : consumesOnly k) : consumesOnly (digits13 k) := by
  intro l r h
  unfold digits13 at h
  cases h3 : exactDigits 3 k l with
  | some r3 =>
    rw [h3] at h
    injection h with h
    subst h
    exact exactDigits_consumesOnly hk 3 l _ h3
  | none =>
    rw [h3] at h
    cases h2 : exactDigits 2 k l with
    | some r2 =>
      rw [h2] at h
      injection h with h
      subst h
      exact exactDigits_consumesOnly hk 2 l _ h2
    | none =>
      rw [h2] at h
      exact exactDigits_consumesOnly hk 1 l _ h

theorem countryGroup_consumesOnly {k : List Char → Option (List Char)}
    (hk : consumesOnly k) : consumesOnly (countryGroup k) := by
  intro l r h
  unfold countryGroup at h
  split at h
  · rename_i t
    cases hg : digits13 (optPred isSepChar k) t with
    | some r2 =>
      rw [hg] at h
      injection h with h
      subst h
      rcases digits13_consumesOnly (optPred_consumesOnly hk isSepChar) t _ hg with ⟨t1, ht1⟩
      exact ⟨'+' :: t1, by rw [List.cons_append, ht1]⟩
    | none =>
      rw [hg] at h
      exact hk _ _ h
  · exact hk _ _ h

theorem phoneFull_consumesOnly : consumesOnly phoneFull := by
  unfold phoneFull
  exact countryGroup_consumesOnly (optPred_consumesOnly
    (exactDigits_consumesOnly (optPred_consumesOnly
      (optPred_consumesOnly (exactDigits_consumesOnly (optPred_consumesOnly
        (exactDigits_consumesOnly consumesOnly_some 4) isSepChar) 3) isSepChar)
      (fun c => c = ')')) 3) (fun c => c = '('))

theorem phoneMatchAt_decomp {l m : List Char} (h : phoneMatchAt l = some m) :
    ∃ rest, m ++ rest = l ∧ phoneFull l = some rest := by
  unfold phoneMatchAt at h
  cases hf : phoneFull l with
  | none => rw [hf] at h; cases h
  | some rest =>
    rw [hf] at h
    injection h with h
    rcases phoneFull_consumesOnly l rest hf with ⟨t, ht⟩
    have hlen : t.length = l.length - rest.length := by
      rw [← ht]
      simp
    have hm : m = t := by
      rw [← h, ← hlen, ← ht, List.take_left]
    subst hm
    exact ⟨rest, ht, rfl⟩

theorem find?_congr {α : Type} {p q : α → Bool} (h : ∀ x, p x = q x) :
    ∀ ls : List α, ls.find? p = ls.find? q := by
  intro ls
  induction ls with
  | nil => rfl
  | cons a t ih =>
    by_cases hq : q a = true
    · rw [List.find?_cons_of_pos _ (by rw [h a]; exact hq),
        List.find?_cons_of_pos _ hq]
    · have hq' : ¬ p a = true := by rw [h a]; exact hq
      rw [List.find?_cons_of_neg _ hq', List.find?_cons_of_neg _ hq, ih]

/-! ## Claim C3 -/

/-- C3: `extract_contact_info` computes its three fields independently. The
email field is exactly the leftmost match of the email regex (`none` iff no
position matches, and a returned match is the one at the first matching
position); the phone field likewise is the leftmost match of the loose phone
regex, returned verbatim as a segment of the text; the name field scans only
the first five lines and picks the first that is non-empty after trimming
and contains no digit, trimmed; and for any text containing a well-formed
email address, the email field recovers exactly a well-formed address
occurring at the earliest position at which any well-formed address
occurs. -/
theorem extract_contact_info_spec (text : List Char) :
    ((extract_contact_info text).email = none ↔
      ∀ i, emailMatchAt (text.drop i) = none) ∧
    (∀ e, (extract_contact_info text).email = some e →
      ∃ i, i ≤ text.length ∧ emailMatchAt (text.drop i) = some e ∧
        ∀ j < i, emailMatchAt (text.drop j) = none) ∧
    ((extract_contact_info text).phone = none ↔
      ∀ i, phoneMatchAt (text.drop i) = none) ∧
    (∀ p, (extract_contact_info text).phone = some p →
      ∃ a b, text = a ++ p ++ b ∧ phoneMatchAt (p ++ b) = some p ∧
        ∀ j < a.length, phoneMatchAt (text.drop j) = none) ∧
    ((extract_contact_info text).name =
      (((splitLines text).take 5).find?
        (fun l => !(pyStrip l).isEmpty && !((pyStrip l).any Char.isDigit))).map pyStrip) ∧
    (∀ a e b, text = a ++ e ++ b → EmailWF e →
      ∃ a2 e2 b2, (extract_contact_info text).email = some e2 ∧ EmailWF e2 ∧
        text = a2 ++ e2 ++ b2 ∧
        ∀ a3 f b3, text = a3 ++ f ++ b3 → EmailWF f → a2.length ≤ a3.length) := by
  have hemail : (extract_contact_info text).email = reSearch emailMatchAt text := rfl
  have hphone : (extract_contact_info text).phone = reSearch phoneMatchAt text := rfl
  refine ⟨?_, ?_, ?_, ?_, ?_, ?_⟩
  · rw [hemail]
    exact reSearch_none_iff
  · intro e he
    rw [hemail] at he
    exact reSearch_some_spec he
  · rw [hphone]
    exact reSearch_none_iff
  · intro p hp
    rw [hphone] at hp
    rcases reSearch_some_spec hp with ⟨i, hilen, hi, hmin⟩
    rcases phoneMatchAt_decomp hi with ⟨restr, hpr, _⟩
    refine ⟨text.take i, restr, ?_, ?_, ?_⟩
    · conv_lhs => rw [← List.take_append_drop i text]
      rw [show text.drop i = p ++ restr from hpr.symm]
      simp
    · rw [hpr]
      exact hi
    · intro j hj
      apply hmin
      have : (text.take i).length = i := by rw [List.length_take]; omega
      omega
  · have hname : (extract_contact_info text).name =
        (((splitLines text).take 5).find? nameLinePred).map pyStrip := rfl
    rw [hname, find?_congr ?hpt]
    case hpt =>
      intro l
      unfold nameLinePred
      rw [any_digit_pyStrip]
  · intro a e b hsplit hwf
    have hne : emailMatchAt (text.drop a.length) ≠ none := by
      rw [hsplit, show a ++ e ++ b = a ++ (e ++ b) by simp, List.drop_left]
      exact emailMatchAt_of_wf hwf b
    cases hse : reSearch emailMatchAt text with
    | none => exact absurd (reSearch_none_iff.mp hse a.length) hne
    | some e2 =>
      rcases reSearch_some_spec hse with ⟨i, hilen, hi, hmin⟩
      rcases emailMatchAt_sound hi with ⟨hwf2, ⟨b2, hb2⟩⟩
      refine ⟨text.take i, e2, b2, ?_, hwf2, ?_, ?_⟩
      · rw [hemail]
        exact hse
      · conv_lhs => rw [← List.take_append_drop i text]
        rw [show text.drop i = e2 ++ b2 from hb2.symm]
        simp
      · intro a3 f b3 hsplit3 hwf3
        by_contra hlt
        push_neg at hlt
        have htl : (text.take i).length = i := by rw [List.length_take]; omega
        have hn3 : emailMatchAt (text.drop a3.length) = none := hmin a3.length (by omega)
        have hnn : emailMatchAt (text.drop a3.length) ≠ none := by
          rw [hsplit3, show a3 ++ f ++ b3 = a3 ++ (f ++ b3) by simp, List.drop_left]
          exact emailMatchAt_of_wf hwf3 b3
        exact hnn hn3

/-- Witness for C3: on a concrete blob the leftmost well-formed email is
recovered with the minimality guarantee, and a digit-free blob has no phone
match. -/
theorem extract_contact_info_spec_witness :
    (∃ a2 e2 b2, (extract_contact_info "mail: bob@site.org now".toList).email = some e2 ∧
      EmailWF e2 ∧ "mail: bob@site.org now".toList = a2 ++ e2 ++ b2 ∧
      ∀ a3 f b3, "mail: bob@site.org now".toList = a3 ++ f ++ b3 → EmailWF f →
        a2.length ≤ a3.length) ∧
    (extract_contact_info "abc".toList).phone = none := by
  constructor
  · exact (extract_contact_info_spec "mail: bob@site.org now".toList).2.2.2.2.2
      "mail: ".toList "bob@site.org".toList " now".toList (by decide)
      ⟨"bob".toList, "site".toList, "org".toList, by decide, by decide, by decide,
        by decide, by decide, by decide, by decide⟩
  · exact (extract_contact_info_spec "abc".toList).2.2.1.mpr
      (reSearch_none_iff.mp (by decide : reSearch phoneMatchAt "abc".toList = none))
